import Mathlib

/-!
# MavShell (`msh.c`): tokenizer, command history, process history, builtin dispatch

A shallow embedding of `src/msh.c`.

* A C string is modelled by the list of its characters before the terminating NUL
  (`Line`).  Every buffer of the program (`msh.in`, `msh.argv[i]`, `ch.in[i]`,
  `tok.str`) has room for 255 characters plus the terminator; `fgets` is called
  with size `MAX_IN-1`, so a line read from standard input has at most 254
  characters, and every string the program copies is a substring of such a line.
* A fixed-size array is modelled by a list of that size, written with `List.set`
  and read with `List.getD`.
* The operating system (standard input, `fork`, `wait`, `chdir`, `getcwd`) is an
  explicit input; what the program prints or asks of the system is returned as a
  list of `Event`s.
-/

namespace Msh

/-! ## Limits (`#define`s, lines 31-34) -/

def MAX_IN : Nat := 256
def MAX_TOK : Nat := 10
def MAX_CMDHIS : Nat := 15
def MAX_PIDHIS : Nat := 15

/-- The characters of a C string, terminator excluded. -/
abbrev Line := List Char

/-- The terminating character of a C string. -/
def NUL : Char := Char.ofNat 0

/-- The string held by a character buffer: everything before the first NUL. -/
def cstr (buf : List Char) : Line := buf.takeWhile (fun c => c != NUL)

/-! ## Structs (lines 43-73) -/

/-- The struct `msh_t`: raw input, the token array and the token count. -/
structure msh_t where
  in_ : Line
  argv : List Line
  argc : Nat
deriving DecidableEq

/-- The struct `tok_t`: the token being accumulated. -/
structure tok_t where
  str : Line
  len : Nat
deriving DecidableEq

/-- The struct `cmdhis_t`: stored lines, their count `n`, the replay index `r`. -/
structure cmdhis_t where
  in_ : List Line
  n : Nat
  r : Nat
deriving DecidableEq

/-- The struct `pidhis_t`: stored process ids, the current one, their count. -/
structure pidhis_t where
  pid : List Int
  cur : Int
  n : Nat
deriving DecidableEq

/-- The result of `memset(&msh, 0, sizeof(msh))` followed by filling `msh.in`. -/
def msh_zero (line : Line) : msh_t :=
  { in_ := line, argv := List.replicate MAX_TOK [], argc := 0 }

/-- The result of `memset(&tok, 0, sizeof(tok))`. -/
def tok_zero : tok_t := { str := [], len := 0 }

/-- The result of `memset(&ch, 0, sizeof(ch))`. -/
def ch_zero : cmdhis_t := { in_ := List.replicate MAX_CMDHIS [], n := 0, r := 0 }

/-- The result of `memset(&ph, 0, sizeof(ph))`. -/
def ph_zero : pidhis_t := { pid := List.replicate MAX_PIDHIS 0, cur := 0, n := 0 }

/-! ## Token generation (lines 413-441) -/

/-- The separator test of `msh_gentok`: `c == ' ' || c == '\t' || c == '\n'`. -/
def isSep (c : Char) : Bool := c == ' ' || c == '\t' || c == '\n'

/-- The range test of `msh_gentok`: `c >= '!' || c <= '~'`. -/
def accepts (c : Char) : Bool := decide ('!' ≤ c) || decide (c ≤ '~')

/-- The function `msh_addtok`: a blank token (`tok->str[0] == 0`) is not added;
otherwise the token string is printed into `argv[argc]`, `argc` is incremented
and the token is reset. -/
def msh_addtok (msh : msh_t) (tok : tok_t) : msh_t × tok_t :=
  if tok.str.headD NUL = NUL then (msh, tok)
  else ({ msh with argv := msh.argv.set msh.argc (cstr tok.str), argc := msh.argc + 1 },
        tok_zero)

/-- The `while` loop of `msh_gentok`, over the characters from index `i` to
`strlen(in)`. -/
def gentok_loop : Line → msh_t → tok_t → msh_t
  | [], msh, _ => msh
  | c :: rest, msh, tok =>
    if msh.argc < MAX_TOK then
      if isSep c then
        gentok_loop rest (msh_addtok msh tok).1 (msh_addtok msh tok).2
      else if accepts c then
        gentok_loop rest msh { str := tok.str ++ [c], len := tok.len + 1 }
      else
        gentok_loop rest msh tok
    else msh

/-- The test of the first loop of `msh_gentok`: `in[i] == ' ' || in[i] == '\t'`. -/
def isBlank (c : Char) : Bool := c == ' ' || c == '\t'

/-- The function `msh_gentok`: skip leading spaces and tabs, then run the loop. -/
def msh_gentok (msh : msh_t) : msh_t :=
  gentok_loop (msh.in_.dropWhile isBlank) msh tok_zero

/-- The tokens stored by `msh_gentok`: `argv[0..argc-1]`. -/
def tokens (msh : msh_t) : List Line := msh.argv.take msh.argc

/-- The string `argv[i]`. -/
def arg (msh : msh_t) (i : Nat) : Line := msh.argv.getD i []

/-! ## The environment and what the program emits -/

/-- What the operating system answers during one cycle of the interpreter loop. -/
structure Env where
  /-- The value `fork()` returns in the calling process. -/
  fork : Int
  /-- The status `wait(&cr)` stores. -/
  status : Int
  /-- The string found in the buffer `cwd` of `msh_cd` after the call of `getcwd`:
  the working directory, or the empty string when `getcwd` fails and leaves the
  zeroed buffer as it was. -/
  cwd : Line
  /-- The `errno` after `chdir(path)`; `0` when `chdir` succeeds. -/
  chdir : Line → Int
  /-- The string found by reading `ch->in[MAX_CMDHIS]`, one entry past the array. -/
  past : Line

/-- An observable action of the program. -/
inductive Event where
  /-- Text written with `fprintf(stdout, ...)`. -/
  | out (text : Line)
  /-- Text written with `fprintf(stderr, ...)`. -/
  | err (text : Line)
  /-- A call `chdir(path)`. -/
  | chdir (path : Line)
  /-- A call `kill(pid, SIGCONT)`. -/
  | kill (pid : Int)
  /-- A call `fork()` that created a child the parent waited for. -/
  | spawn (pid : Int)
  /-- An access below the first element of the buffer `cwd` of `msh_cd`: from
  this event on the behaviour of the program is undefined, and what the model
  returns for the rest of the cycle says nothing about the program. -/
  | fault
deriving DecidableEq

/-- The conversion `%d` of `printf`. -/
def fmt_d (z : Int) : Line :=
  if z < 0 then '-' :: Nat.toDigits 10 z.natAbs else Nat.toDigits 10 z.toNat

/-- The value `EXIT_FAILURE` of `stdlib.h`. -/
def EXIT_FAILURE : Int := 1
/-- The value `ENOENT` of `errno.h`. -/
def ENOENT : Int := 2
/-- The value `ENOTDIR` of `errno.h`. -/
def ENOTDIR : Int := 20

/-! ## Process history (lines 283-305) -/

/-- The function `msh_uppidhis`. -/
def msh_uppidhis (ph : pidhis_t) (pid : Int) : pidhis_t :=
  if pid = 0 then ph
  else
    let ph1 : pidhis_t :=
      if ph.n < MAX_PIDHIS then { ph with n := ph.n + 1 }
      else { ph with pid := (List.range' 1 (MAX_PIDHIS - 1)).foldl
                              (fun a i => a.set (i - 1) (a.getD i 0)) ph.pid }
    { ph1 with pid := ph1.pid.set (ph1.n - 1) pid, cur := pid }

/-- The function `msh_showpidhis`: one line `i: pid` per stored id, from 0. -/
def msh_showpidhis (ph : pidhis_t) : List Event :=
  (List.range ph.n).map
    (fun (i : Nat) => Event.out (fmt_d (i : Int) ++ ": ".toList ++ fmt_d (ph.pid.getD i 0) ++ "\n".toList))

/-! ## Command history (lines 451-494) -/

/-- The function `msh_upcmdhis`.  In the shifting loop `i` runs over
`0 .. MAX_CMDHIS-1` and reads `ch->in[i+1]`; the last read is outside the
array and yields `past`. -/
def msh_upcmdhis (past : Line) (ch : cmdhis_t) (msh : msh_t) : cmdhis_t :=
  if (msh.argv.getD 0 []).headD NUL = NUL then ch
  else if ch.r ≠ 0 then ch
  else if ch.n < MAX_CMDHIS then
    { ch with in_ := ch.in_.set ch.n msh.in_, n := ch.n + 1 }
  else
    { ch with in_ := ((List.range MAX_CMDHIS).foldl
                        (fun a i => a.set i (a.getD (i + 1) past)) ch.in_).set
                      (MAX_CMDHIS - 1) msh.in_ }

/-- The function `msh_showcmdhis`: one line `i+1: entry` per stored entry. -/
def msh_showcmdhis (ch : cmdhis_t) : List Event :=
  if ch.n = 0 then []
  else (List.range ch.n).map
    (fun (i : Nat) => Event.out (fmt_d ((i : Int) + 1) ++ ": ".toList ++ ch.in_.getD i []))

/-- The test `isspace` of the C locale. -/
def isspace (c : Char) : Bool :=
  c == ' ' || c == '\t' || c == '\n' || c == Char.ofNat 11 || c == Char.ofNat 12 || c == '\r'

/-- The value of a run of decimal digits. -/
def digits_val (s : Line) : Int :=
  (s.takeWhile Char.isDigit).foldl (fun a c => 10 * a + ((c.toNat : Int) - 48)) 0

/-- The function `atoi` of the C library: white space, an optional sign, digits. -/
def atoi (s : Line) : Int :=
  match s.dropWhile isspace with
  | '-' :: t => - digits_val t
  | '+' :: t => digits_val t
  | t => digits_val t

/-- The function `msh_getruncmd`: `buff` receives `cmd[1]` and `cmd[2]`. -/
def msh_getruncmd (cmd : Line) : Int :=
  let buff := (cmd.drop 1).take 2
  let r := atoi buff
  if r < 0 ∨ r > MAX_CMDHIS then 0 else r

/-! ## Builtin commands (lines 316-403) -/

/-- The function `msh_quit`. -/
def msh_quit (cmd : Line) : Bool :=
  cmd = "quit".toList || cmd = "exit".toList

/-- The loop `for (i = strlen(cwd)-1; cwd[i] != '/'; i--) cwd[i] = 0` of
`msh_cd`: characters are erased from the end until a `/` is met, which gives
`some` of what is left.  When `cwd` holds no `/` (in particular when it is empty)
the index passes below 0 and the loop reads and writes outside the buffer: the
result is `none`. -/
def strip_last_dir (cwd : Line) : Option Line :=
  if '/' ∈ cwd then some (cwd.reverse.dropWhile (fun c => c != '/')).reverse else none

/-- The function `msh_cd`.  The results of `getcwd` and of the `chdir` of the
`..` branch are not looked at. -/
def msh_cd (env : Env) (msh : msh_t) : List Event :=
  if msh.argv.getD 1 [] = "..".toList then
    match strip_last_dir env.cwd with
    | some dir => [Event.chdir dir]
    | none => [Event.fault]
  else
    Event.chdir (msh.argv.getD 1 []) ::
      (if env.chdir (msh.argv.getD 1 []) = ENOENT then
         [Event.err "msh: Directory does not exist\n".toList]
       else if env.chdir (msh.argv.getD 1 []) = ENOTDIR then
         [Event.err "msh: Not a directory\n".toList]
       else [])

/-- What `msh_run` returns: the `int` result and the state it leaves. -/
structure run_t where
  handled : Nat
  ch : cmdhis_t
  ph : pidhis_t
  events : List Event
deriving DecidableEq

/-- The function `msh_run`. -/
def msh_run (env : Env) (msh : msh_t) (ch : cmdhis_t) (ph : pidhis_t) : run_t :=
  let cmd := msh.argv.getD 0 []
  if msh.in_.headD NUL = NUL then ⟨1, ch, ph, [Event.out "\n".toList]⟩
  else if cmd.headD NUL = NUL then ⟨1, ch, ph, []⟩
  else if msh_quit cmd then ⟨1, ch, ph, []⟩
  else if cmd = "cd".toList then ⟨1, ch, ph, msh_cd env msh⟩
  else if cmd = "history".toList then ⟨1, ch, ph, []⟩
  else if cmd = "showpids".toList then ⟨1, ch, ph, msh_showpidhis ph⟩
  else if cmd.headD NUL = '!' then
    if msh_getruncmd cmd = 0 then ⟨0, ch, ph, []⟩
    else if msh_getruncmd cmd > ch.n then
      ⟨1, ch, ph, [Event.err "Command not in history.\n".toList]⟩
    else ⟨1, { ch with r := (msh_getruncmd cmd).toNat }, ph, []⟩
  else if cmd = "bg".toList ∧ ph.cur ≠ 0 then
    ⟨1, ch, { ph with cur := 0 }, [Event.kill ph.cur]⟩
  else ⟨0, ch, ph, []⟩

/-! ## Process launcher (lines 219-244) -/

/-- What `msh_runproc` returns in the process that gets the result back. -/
structure runproc_t where
  handled : Nat
  ph : pidhis_t
  events : List Event
deriving DecidableEq

/-- The function `msh_runproc`.  In the forked child (`p == 0`) the function
never returns to its caller: `execv` replaces the process image or `_exit` ends
the process; this is the result `none`.  The tokens in `msh` are read by the
child only. -/
def msh_runproc (env : Env) (_msh : msh_t) (ph : pidhis_t) : Option runproc_t :=
  if env.fork > 0 then
    if env.status = EXIT_FAILURE * 2 ^ 8 then some ⟨0, ph, [Event.spawn env.fork]⟩
    else some ⟨1, msh_uppidhis ph env.fork, [Event.spawn env.fork]⟩
  else if env.fork = 0 then none
  else some ⟨1, ph, [Event.err "msh: could not spawn child process\n".toList]⟩

/-! ## Interpreter loop (lines 129-203) -/

/-- The process-wide state kept across cycles, and the flag `running`. -/
structure State where
  ch : cmdhis_t
  ph : pidhis_t
  running : Bool
deriving DecidableEq

/-- The state after the three `memset`s at the start of `main`. -/
def init : State := { ch := ch_zero, ph := ph_zero, running := true }

/-- What lines 153-166 yield: the input line, the command history, what is left
of standard input, and the prompt if one was printed. -/
structure input_t where
  line : Line
  ch : cmdhis_t
  stdin : List Line
  events : List Event
deriving DecidableEq

/-- Lines 153-166 of `main`: the input of the cycle is the history entry
`ch.in[ch.r-1]` when `ch.r` is not zero, and else the next string `fgets`
delivers (at end of input the buffer stays zeroed).  `stdin` lists the strings
the successive `fgets` calls deliver. -/
def obtain_input (ch : cmdhis_t) (stdin : List Line) : input_t :=
  if ch.r ≠ 0 then
    { line := ch.in_.getD (ch.r - 1) [], ch := { ch with r := 0 }, stdin := stdin, events := [] }
  else
    { line := stdin.headD [], ch := ch, stdin := stdin.tail,
      events := [Event.out "msh>".toList] }

/-- Lines 171-196 of `main`: what one cycle does with its input line. -/
def dispatch (env : Env) (line : Line) (ch : cmdhis_t) (ph : pidhis_t) :
    Option (State × List Event) :=
  let msh := msh_gentok (msh_zero line)
  let cmd := msh.argv.getD 0 []
  let running := !(msh_quit cmd)
  let r1 := msh_run env msh ch ph
  let r2 : Option runproc_t :=
    if r1.handled = 0 then msh_runproc env msh r1.ph else some ⟨r1.handled, r1.ph, []⟩
  match r2 with
  | none => none
  | some r2 =>
    let ev3 : List Event :=
      if r2.handled = 0 then [Event.err (cmd ++ ": Command not found.\n".toList)] else []
    let ch2 := msh_upcmdhis env.past r1.ch msh
    let ev4 : List Event := if cmd = "history".toList then msh_showcmdhis ch2 else []
    some ({ ch := ch2, ph := r2.ph, running := running },
          r1.events ++ r2.events ++ ev3 ++ ev4)

/-- One pass through the body of the program loop. -/
def cycle (env : Env) (stdin : List Line) (s : State) :
    Option (State × List Line × List Event) :=
  let i := obtain_input s.ch stdin
  (dispatch env i.line i.ch s.ph).map (fun p => (p.1, i.stdin, i.events ++ p.2))

/-- The body of the `while (running)` loop of `main` repeated, one environment per
cycle, until the environments are used up or `running` is cleared. -/
def run_cycles : List Env → List Line → State → Option (State × List Line × List Event)
  | [], stdin, s => some (s, stdin, [])
  | env :: envs, stdin, s =>
    if s.running then
      (cycle env stdin s).bind (fun r =>
        (run_cycles envs r.2.1 r.1).map (fun q => (q.1, q.2.1, r.2.2 ++ q.2.2)))
    else some (s, stdin, [])

/-! ## Specification-side notions -/

/-- The maximal runs of characters other than space, tab and newline of a line,
in order: the whitespace-separated tokens of the line. -/
def runs (l : Line) : List Line :=
  (l.splitOnP isSep).filter (fun t => t ≠ [])

/-- The maximal runs of a line that are followed by a space, tab or newline. -/
def closed_runs (l : Line) : List Line :=
  ((l.splitOnP isSep).dropLast).filter (fun t => t ≠ [])

/-- The tokens closed by a separator while scanning `cs` with `cur` pending. -/
def scan : Line → Line → List Line
  | [], _ => []
  | c :: cs, cur =>
    if isSep c then (if cur = [] then scan cs [] else cur :: scan cs [])
    else scan cs (cur ++ [c])

/-- The entries a command history holds: `in[0..n-1]`. -/
def stored (ch : cmdhis_t) : List Line := ch.in_.take ch.n

/-- The process ids a process history holds: `pid[0..n-1]`. -/
def stored_pids (ph : pidhis_t) : List Int := ph.pid.take ph.n

/-- The first token `argv[0]` the tokenizer derives from a line. -/
def first_token (l : Line) : Line := (msh_gentok (msh_zero l)).argv.getD 0 []

/-- A submission with a non-empty first token that is neither a replay directive
(`!...`) nor `quit` or `exit`. -/
def is_plain (l : Line) : Bool :=
  (first_token l).headD NUL != NUL && (first_token l).headD NUL != '!'
    && !(msh_quit (first_token l))

/-- A first token that `msh_run` accepts as a replay directive when the history
holds `n` entries. -/
def is_accepted_replay (n : Nat) (cmd : Line) : Bool :=
  cmd.headD NUL == '!' && msh_getruncmd cmd != 0 && decide (msh_getruncmd cmd ≤ (n : Int))

/-- The state reached from the start by the lines `ls` and `!1`: entry 1 is the
line `ls` and its replay is pending. -/
def replay_pending : State :=
  { ch := { in_ := "ls\n".toList :: List.replicate 14 [], n := 1, r := 1 },
    ph := msh_uppidhis ph_zero 100, running := true }

/-- The decimal digit `d` as a character. -/
def digit_char (d : Nat) : Char := Char.ofNat (48 + d)

/-- The ways of writing `k` with one or two decimal digits. -/
def decimal_forms (k : Nat) : List Line :=
  (if k < 10 then [[digit_char k]] else []) ++
    (if k < 100 then [[digit_char (k / 10), digit_char (k % 10)]] else [])

/-- An environment in which `fork` succeeds with child 100 and the child exits
with status 0. -/
def sample_env : Env :=
  { fork := 100, status := 0, cwd := "/a/b/c".toList, chdir := fun _ => 0, past := [] }

/-- An environment in which `fork` succeeds and the child reports that no
program could be executed. -/
def sample_env_miss : Env :=
  { fork := 100, status := 256, cwd := "/a/b/c".toList, chdir := fun _ => 0, past := [] }

/-- An environment in which `getcwd` fails and leaves the buffer empty. -/
def sample_env_nocwd : Env :=
  { fork := 100, status := 0, cwd := [], chdir := fun _ => 0, past := [] }

/-- Sixteen submissions with a non-empty first token, none a replay directive. -/
def sample_lines : List Line :=
  ["ls\n".toList,
   "pwd\n".toList,
   "echo one\n".toList,
   "date\n".toList,
   "cd /tmp\n".toList,
   "history\n".toList,
   "showpids\n".toList,
   "ls -l\n".toList,
   "whoami\n".toList,
   "uname -a\n".toList,
   "true\n".toList,
   "cat msh.c\n".toList,
   "bg\n".toList,
   "make\n".toList,
   "id\n".toList,
   "echo done\n".toList]

/-- A full command history. -/
def sample_full : cmdhis_t :=
  { in_ := sample_lines.take 15, n := 15, r := 0 }

/-- Sixteen process ids. -/
def sample_pids : List Int :=
  [101, 102, 103, 104, 105, 106, 107, 108, 109, 110, 111, 112, 113, 114, 115, 116]

/-- The builtin command surface as the specification words it: the first token
is exactly `quit`, `exit`, `cd`, `history` or `showpids`, or begins with `!`
and the number parsed from its next one or two characters lies in `[1,15]`, or
is exactly `bg` while the current pid `cur` is not zero. -/
def builtin_surface (t : Line) (cur : Int) : Prop :=
  t = "quit".toList ∨ t = "exit".toList ∨ t = "cd".toList ∨ t = "history".toList
    ∨ t = "showpids".toList
    ∨ (t.headD NUL = '!' ∧ 1 ≤ atoi ((t.drop 1).take 2) ∧ atoi ((t.drop 1).take 2) ≤ 15)
    ∨ (t = "bg".toList ∧ cur ≠ 0)

/-- The line cut just after its last space, tab or newline. -/
def cut_after_last_sep (l : Line) : Line :=
  (l.reverse.dropWhile (fun c => !isSep c)).reverse

/-- The characters of a line after its last space, tab or newline. -/
def final_run (l : Line) : Line :=
  (l.reverse.takeWhile (fun c => !isSep c)).reverse

/-- The states the interpreter loop can be in at the start of a cycle: the start
state, and every state a cycle returns from such a state, whatever the
environment and the input. -/
inductive Reachable : State → Prop where
  | start : Reachable init
  | step (env : Env) (stdin rest : List Line) (s s1 : State) (ev : List Event) :
      Reachable s → cycle env stdin s = some (s1, rest, ev) → Reachable s1

/-- The state reached from the start by the lines `!1` and `!1`: entry 1 is the
line `!1` and its replay is pending. -/
def replay_loop : State :=
  { ch := { in_ := "!1\n".toList :: List.replicate 14 [], n := 1, r := 1 },
    ph := ph_zero, running := true }

/-- An access to the array `ch->in`: a read or a write of the entry at an index. -/
inductive Access where
  | rd (i : Nat)
  | wr (i : Nat)
deriving DecidableEq

/-- The index an access touches. -/
def Access.index : Access → Nat
  | Access.rd i => i
  | Access.wr i => i

/-- The function `msh_upcmdhis` together with the accesses it makes to the
entries of `ch->in`, in order.  Below capacity `strcpy` writes entry `n`.  At
capacity iteration `i` of the loop does `memset(ch->in[i])` and
`strcpy(ch->in[i], ch->in[i+1])`, then entry `MAX_CMDHIS-1` is cleared and
written. -/
def msh_upcmdhis_traced (past : Line) (ch : cmdhis_t) (msh : msh_t) :
    cmdhis_t × List Access :=
  if (msh.argv.getD 0 []).headD NUL = NUL then (ch, [])
  else if ch.r ≠ 0 then (ch, [])
  else if ch.n < MAX_CMDHIS then
    ({ ch with in_ := ch.in_.set ch.n msh.in_, n := ch.n + 1 }, [Access.wr ch.n])
  else
    ({ ch with in_ := ((List.range MAX_CMDHIS).foldl
                        (fun (a : List Line × List Access) i =>
                          (a.1.set i (a.1.getD (i + 1) past),
                           a.2 ++ [Access.wr i, Access.rd (i + 1), Access.wr i]))
                        (ch.in_, [])).1.set (MAX_CMDHIS - 1) msh.in_ },
     ((List.range MAX_CMDHIS).foldl
        (fun (a : List Line × List Access) i =>
          (a.1.set i (a.1.getD (i + 1) past),
           a.2 ++ [Access.wr i, Access.rd (i + 1), Access.wr i]))
        (ch.in_, [])).2 ++ [Access.wr (MAX_CMDHIS - 1), Access.wr (MAX_CMDHIS - 1)])

/-- The accesses the shifting loop of `msh_uppidhis` makes to `ph->pid`:
iteration `i`, from 1 to `MAX_PIDHIS-1`, reads entry `i` and writes entry `i-1`;
then entry `n-1` is written. -/
def uppidhis_full_accesses : List Access :=
  (List.range' 1 (MAX_PIDHIS - 1)).foldl
    (fun a i => a ++ [Access.rd i, Access.wr (i - 1)]) [] ++ [Access.wr (MAX_PIDHIS - 1)]

/-! ## The tokenizer -/

theorem accepts_all (c : Char) : accepts c = true := by
  unfold accepts
  by_cases h : '!' ≤ c
  · simp [h]
  · have h2 : c ≤ '~' := by
      have h3 : c < '!' := lt_of_not_ge h
      exact le_of_lt (lt_trans h3 (by decide))
    simp [h2]

theorem cstr_of_nul_free (t : Line) (h : NUL ∉ t) : cstr t = t := by
  unfold cstr
  rw [List.takeWhile_eq_self_iff]
  intro c hc
  have : c ≠ NUL := fun e => h (e ▸ hc)
  simpa using this

theorem headD_nul_iff (t : Line) (h : NUL ∉ t) : t.headD NUL = NUL ↔ t = [] := by
  cases t with
  | nil => simp
  | cons a t =>
    have : a ≠ NUL := fun e => h (by simp [e])
    simp [this]

theorem tokens_set (msh : msh_t) (x : Line) (h : msh.argc < msh.argv.length) :
    tokens { msh with argv := msh.argv.set msh.argc x, argc := msh.argc + 1 }
      = tokens msh ++ [x] := by
  unfold tokens
  simp only
  rw [List.take_succ]
  have e : List.take msh.argc (msh.argv.set msh.argc x) = List.take msh.argc msh.argv := by
    apply List.ext_getElem?
    intro i
    by_cases hi : i < msh.argc
    · have : msh.argc ≠ i := by omega
      simp [List.getElem?_take, hi, List.getElem?_set, this]
    · simp [List.getElem?_take, hi]
  rw [e]
  simp [h]

theorem scan_eq (cs cur : Line) :
    scan cs cur
      = (((cs.splitOnP isSep).modifyHead (fun x => cur ++ x)).dropLast).filter
          (fun t => t ≠ []) := by
  induction cs generalizing cur with
  | nil => simp [scan, List.modifyHead]
  | cons c cs ih =>
    have hne := List.splitOnP_ne_nil isSep cs
    by_cases hc : isSep c = true
    · obtain ⟨p, ps, hps⟩ := List.exists_cons_of_ne_nil hne
      have ih0 := ih []
      simp only [hps, List.modifyHead, List.nil_append] at ih0
      by_cases hcur : cur = []
      · simp [scan, hc, hcur, List.splitOnP_cons, List.modifyHead, hps, ih0]
      · simp [scan, hc, hcur, List.splitOnP_cons, List.modifyHead, hps, ih0]
    · have ih1 := ih (cur ++ [c])
      simp only [scan, hc, List.splitOnP_cons, List.modifyHead_modifyHead]
      simp only [Bool.false_eq_true, if_false]
      rw [ih1]
      have e : (fun x => cur ++ [c] ++ x) = ((fun x => cur ++ x) ∘ List.cons c) := by
        funext x
        simp
      rw [e, List.modifyHead_modifyHead]

theorem scan_dropWhile (l : Line) :
    scan (l.dropWhile isBlank) [] = scan l [] := by
  induction l with
  | nil => rfl
  | cons c l ih =>
    by_cases hc : isBlank c = true
    · have hs : isSep c = true := by
        unfold isSep
        unfold isBlank at hc
        simp only [Bool.or_eq_true] at hc ⊢
        exact Or.inl hc
      rw [List.dropWhile_cons_of_pos hc, ih]
      simp [scan, hs]
    · rw [List.dropWhile_cons_of_neg hc]

theorem gentok_loop_spec (cs : Line) (msh : msh_t) (tok : tok_t)
    (hcs : NUL ∉ cs) (htok : NUL ∉ tok.str)
    (hlen : msh.argv.length = MAX_TOK) (hargc : msh.argc ≤ MAX_TOK) :
    tokens (gentok_loop cs msh tok) = (tokens msh ++ scan cs tok.str).take MAX_TOK
    ∧ (gentok_loop cs msh tok).argv.length = MAX_TOK
    ∧ (gentok_loop cs msh tok).argc ≤ MAX_TOK
    ∧ (gentok_loop cs msh tok).in_ = msh.in_ := by
  have htl : (tokens msh).length = msh.argc := by
    unfold tokens
    simp [hlen, hargc]
  induction cs generalizing msh tok with
  | nil =>
    refine ⟨?_, hlen, hargc, rfl⟩
    simp only [gentok_loop, scan, List.append_nil]
    rw [List.take_of_length_le]
    omega
  | cons c cs ih =>
    have hc : c ≠ NUL := fun e => hcs (by simp [e])
    have hcs2 : NUL ∉ cs := fun h => hcs (List.mem_cons_of_mem _ h)
    by_cases hfull : msh.argc < MAX_TOK
    · by_cases hsep : isSep c = true
      · by_cases hblank : tok.str = []
        · have hadd : msh_addtok msh tok = (msh, tok) := by
            simp [msh_addtok, hblank]
          simp only [gentok_loop, hfull, hsep, if_true, hadd, scan, hblank]
          have := ih msh tok hcs2 htok hlen hargc htl
          simpa [hblank] using this
        · have hhead : ¬ tok.str.headD NUL = NUL := by
            rw [headD_nul_iff _ htok]
            exact hblank
          have hadd : msh_addtok msh tok =
              ({ msh with argv := msh.argv.set msh.argc tok.str, argc := msh.argc + 1 },
                tok_zero) := by
            unfold msh_addtok
            rw [if_neg hhead, cstr_of_nul_free _ htok]
          simp only [gentok_loop, hfull, hsep, if_true, hadd, scan, hblank, if_false]
          have hlt : msh.argc < msh.argv.length := by omega
          have ht := tokens_set msh tok.str hlt
          have := ih { msh with argv := msh.argv.set msh.argc tok.str, argc := msh.argc + 1 }
            tok_zero hcs2 (by simp [tok_zero]) (by simpa using hlen) (by simpa using hfull)
            (by rw [ht]; simp [htl])
          rw [ht] at this
          simpa [tok_zero] using this
      · have hacc := accepts_all c
        simp only [gentok_loop, hfull, hsep, hacc, if_true, scan]
        simp only [Bool.false_eq_true, if_false]
        exact ih msh { str := tok.str ++ [c], len := tok.len + 1 } hcs2
          (by
            simp only [List.mem_append, List.mem_singleton, not_or]
            exact ⟨htok, fun e => hc e.symm⟩)
          hlen hargc htl
    · have e : gentok_loop (c :: cs) msh tok = msh := by simp [gentok_loop, hfull]
      rw [e]
      refine ⟨?_, hlen, hargc, rfl⟩
      rw [List.take_append_of_le_length (by omega), List.take_of_length_le (by omega)]

/-- What `msh_gentok` stores, for every line: the runs closed by a separator,
cut after `MAX_TOK` of them. -/
theorem gentok_spec (l : Line) (hl : NUL ∉ l) :
    tokens (msh_gentok (msh_zero l)) = (closed_runs l).take MAX_TOK
    ∧ (msh_gentok (msh_zero l)).argc = min MAX_TOK (closed_runs l).length
    ∧ (msh_gentok (msh_zero l)).argv.length = MAX_TOK
    ∧ (msh_gentok (msh_zero l)).in_ = l := by
  have hdrop : NUL ∉ l.dropWhile isBlank :=
    fun h => hl ((List.dropWhile_sublist _).subset h)
  have e : msh_gentok (msh_zero l) = gentok_loop (l.dropWhile isBlank) (msh_zero l) tok_zero :=
    rfl
  have h := gentok_loop_spec (l.dropWhile isBlank) (msh_zero l)
    tok_zero hdrop (by simp [tok_zero]) (by simp [msh_zero]) (by simp [msh_zero])
  have hs : scan (l.dropWhile isBlank) tok_zero.str = closed_runs l := by
    show scan (l.dropWhile isBlank) [] = closed_runs l
    rw [scan_dropWhile, scan_eq]
    unfold closed_runs
    congr 2
    have : (fun x : Line => [] ++ x) = id := by
      funext x
      simp
    rw [this]
    simp
  have ht0 : tokens (msh_zero l) = [] := by simp [tokens, msh_zero]
  rw [← e, hs, ht0, List.nil_append] at h
  obtain ⟨h1, h2, h3, h4⟩ := h
  refine ⟨h1, ?_, h2, by simpa [msh_zero] using h4⟩
  have hlen : (tokens (msh_gentok (msh_zero l))).length = (msh_gentok (msh_zero l)).argc := by
    unfold tokens
    rw [List.length_take]
    omega
  rw [← hlen, h1, List.length_take]

theorem splitOnP_concat_sep (l : Line) (c : Char) (hc : isSep c = true) :
    (l ++ [c]).splitOnP isSep = l.splitOnP isSep ++ [[]] := by
  induction l with
  | nil => simp [List.splitOnP_cons, hc]
  | cons x l ih =>
    have hne := List.splitOnP_ne_nil isSep l
    obtain ⟨p, ps, hps⟩ := List.exists_cons_of_ne_nil hne
    by_cases hx : isSep x = true
    · simp [List.splitOnP_cons, hx, ih]
    · simp [List.splitOnP_cons, hx, ih, hps, List.modifyHead]

theorem closed_runs_of_terminated (l : Line)
    (hend : ∀ c, l.getLast? = some c → isSep c = true) : closed_runs l = runs l := by
  rcases List.eq_nil_or_concat l with h | ⟨l0, c, h⟩
  · subst h
    simp [closed_runs, runs]
  · subst h
    rw [List.concat_eq_append] at hend ⊢
    have hc : isSep c = true := hend c (by simp)
    unfold closed_runs runs
    rw [splitOnP_concat_sep l0 c hc]
    simp

theorem closed_runs_cases (l : Line) :
    closed_runs l = runs l ∨ closed_runs l = (runs l).dropLast := by
  have hne := List.splitOnP_ne_nil isSep l
  have hS := List.dropLast_concat_getLast hne
  unfold closed_runs runs
  by_cases hlast : (List.splitOnP isSep l).getLast hne = []
  · left
    conv_rhs => rw [← hS]
    simp [hlast]
  · right
    conv_rhs => rw [← hS]
    simp [hlast]

theorem take_closed_runs (l : Line) (h : MAX_TOK < (runs l).length) :
    (closed_runs l).take MAX_TOK = (runs l).take MAX_TOK
    ∧ MAX_TOK ≤ (closed_runs l).length := by
  rcases closed_runs_cases l with e | e
  · rw [e]
    exact ⟨rfl, le_of_lt h⟩
  · rw [e, List.dropLast_eq_take, List.take_take, List.length_take]
    constructor
    · congr 1
      omega
    · omega

/-- Claim C1, at an input without a trailing newline: for the line `echo hi`, made
of the two printable tokens `echo` and `hi`, `msh_gentok` stores the single token
`echo` and sets `argc` to 1; for the line `ls` it stores no token at all. -/
theorem gentok_unterminated_token_lost :
    runs "echo hi".toList = ["echo".toList, "hi".toList]
    ∧ tokens (msh_gentok (msh_zero "echo hi".toList)) = ["echo".toList]
    ∧ (msh_gentok (msh_zero "echo hi".toList)).argc = 1
    ∧ runs "ls".toList = ["ls".toList]
    ∧ (msh_gentok (msh_zero "ls".toList)).argc = 0
    ∧ (msh_gentok (msh_zero "ls".toList)).argv.getD 0 [] = [] := by
  decide

/-- Claim C2: for every line with more than 10 whitespace-separated tokens,
`msh_gentok` stores exactly the first 10 of them, in order, in `argv[0..9]` and
sets `argc` to 10; the rest of the line has no effect and the function, which is
total, has no way of reporting an error. -/
theorem gentok_more_than_ten_tokens (l : Line) (hl : NUL ∉ l)
    (h : 10 < (runs l).length) :
    tokens (msh_gentok (msh_zero l)) = (runs l).take 10
    ∧ (msh_gentok (msh_zero l)).argc = 10
    ∧ (msh_gentok (msh_zero l)).argv = (runs l).take 10 := by
  obtain ⟨h1, h2, h3, _⟩ := gentok_spec l hl
  obtain ⟨h4, h5⟩ := take_closed_runs l h
  have hargc : (msh_gentok (msh_zero l)).argc = 10 := by
    rw [h2]
    exact min_eq_left h5
  have htok : tokens (msh_gentok (msh_zero l)) = (runs l).take 10 := by
    rw [h1, h4]
    rfl
  refine ⟨htok, hargc, ?_⟩
  rw [← htok]
  unfold tokens
  rw [hargc, List.take_of_length_le]
  rw [h3]
  decide

theorem gentok_more_than_ten_tokens_witness :
    tokens (msh_gentok (msh_zero "a b c d e f g h i j k l\n".toList))
      = (runs "a b c d e f g h i j k l\n".toList).take 10
    ∧ (msh_gentok (msh_zero "a b c d e f g h i j k l\n".toList)).argc = 10
    ∧ (msh_gentok (msh_zero "a b c d e f g h i j k l\n".toList)).argv
      = (runs "a b c d e f g h i j k l\n".toList).take 10 :=
  gentok_more_than_ten_tokens "a b c d e f g h i j k l\n".toList (by decide) (by decide)

/-- Claim C3: for every line with at most 10 tokens whose last character, if any,
is a space, tab or newline (so that every token is followed by a separator),
`msh_gentok` stores exactly the maximal runs of characters other than space, tab
and newline, in order, and sets `argc` to their number; the range test
`c >= '!' || c <= '~'` accepts every character; `"   echo   hi  "` gives
`["echo","hi"]` with `argc = 2`. -/
theorem gentok_terminated_line (l : Line) (hl : NUL ∉ l)
    (hend : ∀ c, l.getLast? = some c → isSep c = true)
    (hten : (runs l).length ≤ 10) :
    tokens (msh_gentok (msh_zero l)) = runs l
    ∧ (msh_gentok (msh_zero l)).argc = (runs l).length
    ∧ (∀ c, accepts c = true)
    ∧ tokens (msh_gentok (msh_zero "   echo   hi  ".toList)) = ["echo".toList, "hi".toList]
    ∧ (msh_gentok (msh_zero "   echo   hi  ".toList)).argc = 2 := by
  obtain ⟨h1, h2, _, _⟩ := gentok_spec l hl
  rw [closed_runs_of_terminated l hend] at h1 h2
  refine ⟨?_, ?_, accepts_all, by decide, by decide⟩
  · rw [h1]
    exact List.take_of_length_le hten
  · rw [h2]
    exact min_eq_right hten

theorem gentok_terminated_line_witness :
    tokens (msh_gentok (msh_zero " ls\t-l   /tmp \n".toList))
      = ["ls".toList, "-l".toList, "/tmp".toList]
    ∧ (msh_gentok (msh_zero " ls\t-l   /tmp \n".toList)).argc = 3 :=
  have h := gentok_terminated_line " ls\t-l   /tmp \n".toList (by decide) (by decide)
    (by decide)
  ⟨h.1.trans (by decide), h.2.1.trans (by decide)⟩

/-! ## The two bounded histories -/

theorem length_fifteen {α : Type} (l : List α) (h : l.length = 15) :
    ∃ a0 a1 a2 a3 a4 a5 a6 a7 a8 a9 a10 a11 a12 a13 a14 : α,
      l = [a0, a1, a2, a3, a4, a5, a6, a7, a8, a9, a10, a11, a12, a13, a14] := by
  rcases l with _ | ⟨a0, _ | ⟨a1, _ | ⟨a2, _ | ⟨a3, _ | ⟨a4, _ | ⟨a5, _ | ⟨a6, _ | ⟨a7, _ | ⟨a8, _ | ⟨a9, _ | ⟨a10, _ | ⟨a11, _ | ⟨a12, _ | ⟨a13, _ | ⟨a14, _ | ⟨b, l⟩⟩⟩⟩⟩⟩⟩⟩⟩⟩⟩⟩⟩⟩⟩⟩
  all_goals first
    | exact ⟨_, _, _, _, _, _, _, _, _, _, _, _, _, _, _, rfl⟩
    | (simp only [List.length_cons, List.length_nil] at h; omega)

theorem take_succ_set {α : Type} (l : List α) (n : Nat) (x : α) (h : n < l.length) :
    (l.set n x).take (n + 1) = l.take n ++ [x] := by
  rw [List.take_succ]
  have e : List.take n (l.set n x) = List.take n l := by
    apply List.ext_getElem?
    intro i
    by_cases hi : i < n
    · have : n ≠ i := by omega
      simp [List.getElem?_take, hi, List.getElem?_set, this]
    · simp [List.getElem?_take, hi]
  rw [e]
  simp [h]

theorem drop_log {α : Type} (A : List α) (x : α) (ls : List α) (hA : A.length ≤ 15) :
    ((A ++ [x]).drop (A.length + 1 - 15) ++ ls).drop (min (A.length + 1) 15 + ls.length - 15)
      = (A ++ x :: ls).drop (A.length + (ls.length + 1) - 15) := by
  by_cases h : A.length < 15
  · have e1 : A.length + 1 - 15 = 0 := by omega
    have e2 : min (A.length + 1) 15 = A.length + 1 := by omega
    rw [e1, e2, List.drop_zero, List.append_assoc]
    congr 1
    omega
  · have e0 : A.length = 15 := by omega
    have e1 : A.length + 1 - 15 = 1 := by omega
    have e2 : min (A.length + 1) 15 + ls.length - 15 = ls.length := by omega
    have e3 : A.length + (ls.length + 1) - 15 = 1 + ls.length := by omega
    rw [e1, e2, e3, ← List.drop_append_of_le_length (by simp), List.drop_drop,
      List.append_assoc]
    rfl

/-- The effect of `msh_upcmdhis` on a full history. -/
theorem upcmdhis_full (past : Line) (ch : cmdhis_t) (msh : msh_t)
    (hlen : ch.in_.length = 15) (hn : ch.n = 15) (hr : ch.r = 0)
    (htok : (msh.argv.getD 0 []).headD NUL ≠ NUL) :
    msh_upcmdhis past ch msh = { in_ := ch.in_.tail ++ [msh.in_], n := 15, r := 0 } := by
  obtain ⟨a0, a1, a2, a3, a4, a5, a6, a7, a8, a9, a10, a11, a12, a13, a14, hl⟩ :=
    length_fifteen ch.in_ hlen
  unfold msh_upcmdhis
  rw [if_neg htok, if_neg (by simp [hr]), if_neg (by simp [hn, MAX_CMDHIS]), hl]
  cases ch
  simp only at hn hr
  subst hn hr
  rfl

/-- The effect of `msh_upcmdhis` below capacity. -/
theorem upcmdhis_append (past : Line) (ch : cmdhis_t) (msh : msh_t)
    (hn : ch.n < 15) (hr : ch.r = 0)
    (htok : (msh.argv.getD 0 []).headD NUL ≠ NUL) :
    msh_upcmdhis past ch msh = { in_ := ch.in_.set ch.n msh.in_, n := ch.n + 1, r := 0 } := by
  unfold msh_upcmdhis
  rw [if_neg htok, if_neg (by simp [hr]), if_pos (by simpa [MAX_CMDHIS] using hn)]
  cases ch
  simp only at hr
  subst hr
  rfl

theorem upcmdhis_stored (past : Line) (ch : cmdhis_t) (msh : msh_t)
    (hlen : ch.in_.length = 15) (hn : ch.n ≤ 15) (hr : ch.r = 0)
    (htok : (msh.argv.getD 0 []).headD NUL ≠ NUL) :
    (msh_upcmdhis past ch msh).r = 0
    ∧ (msh_upcmdhis past ch msh).in_.length = 15
    ∧ (msh_upcmdhis past ch msh).n = min (ch.n + 1) 15
    ∧ stored (msh_upcmdhis past ch msh) = (stored ch ++ [msh.in_]).drop (ch.n + 1 - 15) := by
  by_cases h : ch.n < 15
  · rw [upcmdhis_append past ch msh h hr htok]
    refine ⟨rfl, by simp [hlen], by simp; omega, ?_⟩
    have e1 : ch.n + 1 - 15 = 0 := by omega
    rw [e1, List.drop_zero]
    exact take_succ_set ch.in_ ch.n msh.in_ (by omega)
  · have e0 : ch.n = 15 := by omega
    rw [upcmdhis_full past ch msh hlen e0 hr htok]
    have hne : ch.in_ ≠ [] := by
      intro e
      rw [e] at hlen
      simp at hlen
    refine ⟨rfl, by simp [hlen], by simp [e0], ?_⟩
    have hs : stored ch = ch.in_ := by
      unfold stored
      rw [List.take_of_length_le (by omega)]
    rw [hs, e0]
    unfold stored
    simp only
    rw [List.take_of_length_le (by simp [hlen])]
    cases hc : ch.in_ with
    | nil => exact absurd hc hne
    | cons a t => rfl

/-! ## Builtin dispatch and the interpreter loop -/

theorem run_ch_of_not_bang (env : Env) (msh : msh_t) (ch : cmdhis_t) (ph : pidhis_t)
    (h : (msh.argv.getD 0 []).headD NUL ≠ '!') : (msh_run env msh ch ph).ch = ch := by
  unfold msh_run
  simp only [h, if_false]
  split_ifs <;> rfl

theorem runproc_returns (env : Env) (msh : msh_t) (ph : pidhis_t) (h : env.fork ≠ 0) :
    ∃ r, msh_runproc env msh ph = some r := by
  unfold msh_runproc
  split_ifs
  · exact ⟨_, rfl⟩
  · exact ⟨_, rfl⟩
  · exact ⟨_, rfl⟩

theorem dispatch_plain (env : Env) (l : Line) (ch : cmdhis_t) (ph : pidhis_t)
    (hfork : env.fork ≠ 0) (hbang : (first_token l).headD NUL ≠ '!')
    (hq : msh_quit (first_token l) = false) :
    ∃ ph1 ev, dispatch env l ch ph
      = some (⟨msh_upcmdhis env.past ch (msh_gentok (msh_zero l)), ph1, true⟩, ev) := by
  unfold first_token at hbang hq
  obtain ⟨r2, hr2⟩ : ∃ r2,
      (if (msh_run env (msh_gentok (msh_zero l)) ch ph).handled = 0 then
          msh_runproc env (msh_gentok (msh_zero l))
            (msh_run env (msh_gentok (msh_zero l)) ch ph).ph
        else some ⟨(msh_run env (msh_gentok (msh_zero l)) ch ph).handled,
          (msh_run env (msh_gentok (msh_zero l)) ch ph).ph, []⟩) = some r2 := by
    split_ifs
    · exact runproc_returns env _ _ hfork
    · exact ⟨_, rfl⟩
  unfold dispatch
  simp only [hr2, hq, run_ch_of_not_bang env _ ch ph hbang]
  exact ⟨_, _, rfl⟩

theorem first_token_blank_of_plain (l : Line) (h : is_plain l = true) :
    (first_token l).headD NUL ≠ NUL ∧ (first_token l).headD NUL ≠ '!'
    ∧ msh_quit (first_token l) = false := by
  unfold is_plain at h
  simp only [Bool.and_eq_true, bne_iff_ne, ne_eq, Bool.not_eq_true'] at h
  exact ⟨h.1.1, h.1.2, h.2⟩

theorem cycle_plain (env : Env) (l : Line) (stdin : List Line) (s : State)
    (hfork : env.fork ≠ 0) (hl : NUL ∉ l) (hp : is_plain l = true)
    (hr : s.ch.r = 0) (hlen : s.ch.in_.length = 15) (hn : s.ch.n ≤ 15) :
    ∃ s1 ev, cycle env (l :: stdin) s = some (s1, stdin, ev)
      ∧ s1.running = true ∧ s1.ch.r = 0 ∧ s1.ch.in_.length = 15
      ∧ s1.ch.n = min (s.ch.n + 1) 15
      ∧ stored s1.ch = (stored s.ch ++ [l]).drop (s.ch.n + 1 - 15) := by
  obtain ⟨h1, h2, h3⟩ := first_token_blank_of_plain l hp
  obtain ⟨ph1, ev, hd⟩ := dispatch_plain env l s.ch s.ph hfork h2 h3
  have hin : (msh_gentok (msh_zero l)).in_ = l := (gentok_spec l hl).2.2.2
  obtain ⟨u1, u2, u3, u4⟩ :=
    upcmdhis_stored env.past s.ch (msh_gentok (msh_zero l)) hlen hn hr h1
  rw [hin] at u4
  refine ⟨⟨msh_upcmdhis env.past s.ch (msh_gentok (msh_zero l)), ph1, true⟩,
    Event.out "msh>".toList :: ev, ?_, rfl, u1, u2, u3, u4⟩
  unfold cycle obtain_input
  simp only [hr, ne_eq, not_true_eq_false, if_false, List.headD_cons, List.tail_cons, hd,
    Option.map_some']
  rfl

theorem run_cycles_plain (ls : List Line) :
    ∀ (envs : List Env) (rest : List Line) (s : State),
      envs.length = ls.length → (∀ e ∈ envs, e.fork ≠ 0) →
      (∀ l ∈ ls, NUL ∉ l ∧ is_plain l = true) →
      s.running = true → s.ch.r = 0 → s.ch.in_.length = 15 → s.ch.n ≤ 15 →
      ∃ s1 ev, run_cycles envs (ls ++ rest) s = some (s1, rest, ev)
        ∧ s1.running = true ∧ s1.ch.r = 0 ∧ s1.ch.in_.length = 15
        ∧ s1.ch.n = min (s.ch.n + ls.length) 15
        ∧ stored s1.ch = (stored s.ch ++ ls).drop (s.ch.n + ls.length - 15) := by
  induction ls with
  | nil =>
    intro envs rest s he _ _ hrun hr hlen hn
    have : envs = [] := List.eq_nil_of_length_eq_zero he
    subst this
    refine ⟨s, [], rfl, hrun, hr, hlen, ?_, ?_⟩
    · simp [hn]
    · simp only [List.append_nil, List.length_nil, Nat.add_zero]
      have : s.ch.n - 15 = 0 := by omega
      rw [this, List.drop_zero]
  | cons l ls ih =>
    intro envs rest s he hf hp hrun hr hlen hn
    cases envs with
    | nil => simp at he
    | cons env envs =>
      have hsn : (stored s.ch).length = s.ch.n := by
        unfold stored
        rw [List.length_take]
        omega
      obtain ⟨s1, ev1, hc, c1, c2, c3, c4, c5⟩ := cycle_plain env l (ls ++ rest) s
        (hf env (List.mem_cons_self _ _)) (hp l (List.mem_cons_self _ _)).1
        (hp l (List.mem_cons_self _ _)).2 hr hlen hn
      obtain ⟨s2, ev2, hc2, d1, d2, d3, d4, d5⟩ := ih envs rest s1
        (by simpa using he) (fun e h => hf e (List.mem_cons_of_mem _ h))
        (fun x h => hp x (List.mem_cons_of_mem _ h)) c1 c2 c3 (by rw [c4]; omega)
      refine ⟨s2, ev1 ++ ev2, ?_, d1, d2, d3, ?_, ?_⟩
      · simp only [run_cycles, hrun, if_true, List.cons_append, hc, Option.some_bind, hc2,
          Option.map_some']
      · rw [d4, c4, List.length_cons]
        omega
      · rw [d5, c5, c4, ← hsn]
        exact drop_log (stored s.ch) l ls (by omega)

/-- Claim C4: recording a line with a non-empty first token into a full command
history (15 entries, no replay pending) drops entry 0, moves every other entry
down by one and stores the new line last, the count staying 15; and from the
start state, 16 successive cycles fed with lines that have a non-empty first
token and are no replay directive (nor `quit`/`exit`, which would stop the loop)
leave exactly submissions 2..16, in order, in the history, with count 15. -/
theorem cmdhis_keeps_last_fifteen (past : Line) (ch : cmdhis_t) (msh : msh_t)
    (envs : List Env) (ls rest : List Line)
    (hlen : ch.in_.length = 15) (hn : ch.n = 15) (hr : ch.r = 0)
    (htok : (msh.argv.getD 0 []).headD NUL ≠ NUL)
    (hls : ls.length = 16) (henvs : envs.length = 16) (hfork : ∀ e ∈ envs, e.fork ≠ 0)
    (hplain : ∀ l ∈ ls, NUL ∉ l ∧ is_plain l = true) :
    msh_upcmdhis past ch msh = { in_ := ch.in_.tail ++ [msh.in_], n := 15, r := 0 }
    ∧ ∃ s ev, run_cycles envs (ls ++ rest) init = some (s, rest, ev)
        ∧ s.ch.in_ = ls.tail ∧ s.ch.n = 15 ∧ s.ch.r = 0 := by
  refine ⟨upcmdhis_full past ch msh hlen hn hr htok, ?_⟩
  obtain ⟨s, ev, h1, _, h3, h4, h5, h6⟩ := run_cycles_plain ls envs rest init
    (by rw [henvs, hls]) hfork hplain rfl rfl (by decide) (by decide)
  have hn15 : s.ch.n = 15 := by
    rw [h5, hls]
    decide
  refine ⟨s, ev, h1, ?_, hn15, h3⟩
  have hs : stored s.ch = s.ch.in_ := by
    unfold stored
    rw [List.take_of_length_le (by omega)]
  rw [← hs, h6, hls]
  have : stored init.ch = [] := by decide
  rw [this]
  cases ls with
  | nil => simp at hls
  | cons a t => rfl

theorem cmdhis_keeps_last_fifteen_witness :
    msh_upcmdhis [] sample_full (msh_gentok (msh_zero "vi\n".toList))
      = { in_ := sample_full.in_.tail ++ [(msh_gentok (msh_zero "vi\n".toList)).in_],
          n := 15, r := 0 }
    ∧ ∃ s ev, run_cycles (List.replicate 16 sample_env) (sample_lines ++ []) init
          = some (s, [], ev)
        ∧ s.ch.in_ = sample_lines.tail ∧ s.ch.n = 15 ∧ s.ch.r = 0 :=
  cmdhis_keeps_last_fifteen [] sample_full (msh_gentok (msh_zero "vi\n".toList))
    (List.replicate 16 sample_env) sample_lines [] (by decide) (by decide) (by decide)
    (by decide) (by decide) (by decide) (by decide) (by decide)

/-- The effect of `msh_uppidhis` on a full process history. -/
theorem uppidhis_full (ph : pidhis_t) (pid : Int) (hpid : pid ≠ 0)
    (hlen : ph.pid.length = 15) (hn : ph.n = 15) :
    msh_uppidhis ph pid = { pid := ph.pid.tail ++ [pid], cur := pid, n := 15 } := by
  obtain ⟨a0, a1, a2, a3, a4, a5, a6, a7, a8, a9, a10, a11, a12, a13, a14, hl⟩ :=
    length_fifteen ph.pid hlen
  unfold msh_uppidhis
  rw [if_neg hpid]
  simp only
  rw [if_neg (by simp [hn, MAX_PIDHIS]), hl]
  cases ph
  simp only at hn
  subst hn
  rfl

/-- The effect of `msh_uppidhis` below capacity. -/
theorem uppidhis_append (ph : pidhis_t) (pid : Int) (hpid : pid ≠ 0) (hn : ph.n < 15) :
    msh_uppidhis ph pid = { pid := ph.pid.set ph.n pid, cur := pid, n := ph.n + 1 } := by
  unfold msh_uppidhis
  rw [if_neg hpid]
  simp only
  rw [if_pos (by simpa [MAX_PIDHIS] using hn)]
  simp

theorem uppidhis_stored (ph : pidhis_t) (pid : Int) (hpid : pid ≠ 0)
    (hlen : ph.pid.length = 15) (hn : ph.n ≤ 15) :
    (msh_uppidhis ph pid).pid.length = 15
    ∧ (msh_uppidhis ph pid).n = min (ph.n + 1) 15
    ∧ (msh_uppidhis ph pid).cur = pid
    ∧ stored_pids (msh_uppidhis ph pid) = (stored_pids ph ++ [pid]).drop (ph.n + 1 - 15) := by
  by_cases h : ph.n < 15
  · rw [uppidhis_append ph pid hpid h]
    refine ⟨by simp [hlen], by simp; omega, rfl, ?_⟩
    have e1 : ph.n + 1 - 15 = 0 := by omega
    rw [e1, List.drop_zero]
    exact take_succ_set ph.pid ph.n pid (by omega)
  · have e0 : ph.n = 15 := by omega
    rw [uppidhis_full ph pid hpid hlen e0]
    have hne : ph.pid ≠ [] := by
      intro e
      rw [e] at hlen
      simp at hlen
    refine ⟨by simp [hlen], by simp [e0], rfl, ?_⟩
    have hs : stored_pids ph = ph.pid := by
      unfold stored_pids
      rw [List.take_of_length_le (by omega)]
    rw [hs, e0]
    unfold stored_pids
    simp only
    rw [List.take_of_length_le (by simp [hlen])]
    cases hc : ph.pid with
    | nil => exact absurd hc hne
    | cons a t => rfl

theorem foldl_uppidhis (ps : List Int) :
    ∀ ph : pidhis_t, (∀ p ∈ ps, p ≠ 0) → ph.pid.length = 15 → ph.n ≤ 15 →
      (ps.foldl msh_uppidhis ph).pid.length = 15
      ∧ (ps.foldl msh_uppidhis ph).n = min (ph.n + ps.length) 15
      ∧ (ps.foldl msh_uppidhis ph).cur = ps.getLast?.getD ph.cur
      ∧ stored_pids (ps.foldl msh_uppidhis ph)
          = (stored_pids ph ++ ps).drop (ph.n + ps.length - 15) := by
  induction ps with
  | nil =>
    intro ph _ hlen hn
    refine ⟨hlen, by simp [hn], rfl, ?_⟩
    simp only [List.foldl_nil, List.append_nil, List.length_nil, Nat.add_zero]
    have : ph.n - 15 = 0 := by omega
    rw [this, List.drop_zero]
  | cons p ps ih =>
    intro ph hp hlen hn
    have hsn : (stored_pids ph).length = ph.n := by
      unfold stored_pids
      rw [List.length_take]
      omega
    obtain ⟨c1, c2, c3, c4⟩ := uppidhis_stored ph p (hp p (List.mem_cons_self _ _)) hlen hn
    obtain ⟨d1, d2, d3, d4⟩ := ih (msh_uppidhis ph p)
      (fun x h => hp x (List.mem_cons_of_mem _ h)) c1 (by rw [c2]; omega)
    rw [List.foldl_cons]
    refine ⟨d1, ?_, ?_, ?_⟩
    · rw [d2, c2, List.length_cons]
      omega
    · rw [d3, c3]
      cases ps with
      | nil => rfl
      | cons q qs =>
        rw [List.getLast?_cons_cons, List.getLast?_eq_getLast (q :: qs) (List.cons_ne_nil _ _)]
        rfl
    · rw [d4, c4, c2, ← hsn]
      exact drop_log (stored_pids ph) p ps (by omega)

/-- Claim C10: `msh_uppidhis` on a non-zero pid stores it after the ids already
held when fewer than 15 are held, and otherwise drops the oldest id, moves the
others down and stores it last; in both cases `cur` becomes that pid.  Starting
from the empty process history, after 16 recorded launches the stored ids are
launches 2..16 in order, the count is 15 and `cur` is the 16th id. -/
theorem pidhis_keeps_last_fifteen (ph : pidhis_t) (pid : Int) (ps : List Int)
    (hpid : pid ≠ 0) (hlen : ph.pid.length = 15) (hn : ph.n ≤ 15)
    (hps : ps.length = 16) (hnz : ∀ p ∈ ps, p ≠ 0) :
    (ph.n < 15 → stored_pids (msh_uppidhis ph pid) = stored_pids ph ++ [pid]
        ∧ (msh_uppidhis ph pid).n = ph.n + 1 ∧ (msh_uppidhis ph pid).cur = pid)
    ∧ (ph.n = 15 →
        msh_uppidhis ph pid = { pid := ph.pid.tail ++ [pid], cur := pid, n := 15 })
    ∧ ps.foldl msh_uppidhis ph_zero = { pid := ps.tail, cur := ps.getD 15 0, n := 15 } := by
  refine ⟨?_, uppidhis_full ph pid hpid hlen, ?_⟩
  · intro h
    rw [uppidhis_append ph pid hpid h]
    exact ⟨take_succ_set ph.pid ph.n pid (by omega), rfl, rfl⟩
  · obtain ⟨h1, h2, h3, h4⟩ := foldl_uppidhis ps ph_zero hnz (by decide) (by decide)
    have hn15 : (ps.foldl msh_uppidhis ph_zero).n = 15 := by
      rw [h2, hps]
      decide
    have hs : stored_pids (ps.foldl msh_uppidhis ph_zero)
        = (ps.foldl msh_uppidhis ph_zero).pid := by
      unfold stored_pids
      rw [List.take_of_length_le (by omega)]
    have hpidl : (ps.foldl msh_uppidhis ph_zero).pid = ps.tail := by
      rw [← hs, h4, hps]
      have : stored_pids ph_zero = [] := by decide
      rw [this]
      cases ps with
      | nil => simp at hps
      | cons a t => rfl
    have hcur : (ps.foldl msh_uppidhis ph_zero).cur = ps.getD 15 0 := by
      rw [h3]
      have hne : ps ≠ [] := by
        intro e
        rw [e] at hps
        simp at hps
      rw [List.getLast?_eq_getLast _ hne, List.getLast_eq_getElem]
      simp [hps]
    cases hf : ps.foldl msh_uppidhis ph_zero with
    | mk a b c =>
      rw [hf] at hpidl hcur hn15
      simp only at hpidl hcur hn15
      rw [hpidl, hcur, hn15]

theorem pidhis_keeps_last_fifteen_witness :
    (ph_zero.n < 15 → stored_pids (msh_uppidhis ph_zero 7) = stored_pids ph_zero ++ [7]
        ∧ (msh_uppidhis ph_zero 7).n = ph_zero.n + 1 ∧ (msh_uppidhis ph_zero 7).cur = 7)
    ∧ (ph_zero.n = 15 →
        msh_uppidhis ph_zero 7 = { pid := ph_zero.pid.tail ++ [7], cur := 7, n := 15 })
    ∧ sample_pids.foldl msh_uppidhis ph_zero
        = { pid := sample_pids.tail, cur := sample_pids.getD 15 0, n := 15 } :=
  pidhis_keeps_last_fifteen ph_zero 7 sample_pids (by decide) (by decide) (by decide)
    (by decide) (by decide)

/-! ## Replay directives -/

theorem bang_ne (rest s : Line) (hs : s.headD NUL ≠ '!') : '!' :: rest ≠ s := by
  intro e
  subst e
  simp at hs

theorem quit_bang (rest : Line) : msh_quit ('!' :: rest) = false := by
  unfold msh_quit
  simp [bang_ne rest "quit".toList (by decide), bang_ne rest "exit".toList (by decide)]

/-- What `msh_run` does with a first token that begins with `!`. -/
theorem run_bang (env : Env) (msh : msh_t) (ch : cmdhis_t) (ph : pidhis_t) (rest : Line)
    (hin : msh.in_.headD NUL ≠ NUL) (hcmd : msh.argv.getD 0 [] = '!' :: rest) :
    msh_run env msh ch ph =
      if msh_getruncmd ('!' :: rest) = 0 then ⟨0, ch, ph, []⟩
      else if msh_getruncmd ('!' :: rest) > ch.n then
        ⟨1, ch, ph, [Event.err "Command not in history.\n".toList]⟩
      else ⟨1, { ch with r := (msh_getruncmd ('!' :: rest)).toNat }, ph, []⟩ := by
  unfold msh_run
  simp only [hcmd]
  have h1 : ¬ ('!' :: rest).headD NUL = NUL := by
    show ¬ '!' = NUL
    decide
  rw [if_neg hin, if_neg h1, if_neg (by simp [quit_bang]),
    if_neg (bang_ne rest _ (by decide)), if_neg (bang_ne rest _ (by decide)),
    if_neg (bang_ne rest _ (by decide)),
    if_pos (show ('!' :: rest).headD NUL = '!' from rfl)]

theorem getruncmd_decimal :
    ∀ k : Fin 16, 1 ≤ k.val → ∀ ds ∈ decimal_forms k.val,
      msh_getruncmd ('!' :: ds) = (k.val : Int) := by
  decide

theorem gentok_loop_in (cs : Line) (msh : msh_t) (tok : tok_t) :
    (gentok_loop cs msh tok).in_ = msh.in_ := by
  induction cs generalizing msh tok with
  | nil => rfl
  | cons c cs ih =>
    unfold gentok_loop
    split_ifs
    · rw [ih]
      unfold msh_addtok
      split_ifs <;> rfl
    · exact ih _ _
    · exact ih _ _
    · rfl

theorem gentok_in (l : Line) : (msh_gentok (msh_zero l)).in_ = l :=
  gentok_loop_in _ _ _

theorem head_of_first_token (l : Line) (hl : NUL ∉ l) (h : first_token l ≠ []) :
    l.headD NUL ≠ NUL := by
  cases l with
  | nil => exact absurd (by decide) h
  | cons a t =>
    intro e
    exact hl (by simp at e; simp [e])

theorem run_directive (env : Env) (msh : msh_t) (ch : cmdhis_t) (ph : pidhis_t)
    (k : Nat) (ds : Line) (hk1 : 1 ≤ k) (hkn : k ≤ ch.n) (hn : ch.n ≤ 15)
    (hds : ds ∈ decimal_forms k) (hin : msh.in_.headD NUL ≠ NUL)
    (hcmd : msh.argv.getD 0 [] = '!' :: ds) :
    msh_run env msh ch ph = ⟨1, { ch with r := k }, ph, []⟩ := by
  have hk : k < 16 := by omega
  have hg : msh_getruncmd ('!' :: ds) = (k : Int) := getruncmd_decimal ⟨k, hk⟩ hk1 ds hds
  have hk0 : k ≠ 0 := by omega
  rw [run_bang env msh ch ph ds hin hcmd, hg, if_neg (by exact_mod_cast hk0),
    if_neg (by exact_mod_cast not_lt.mpr hkn)]
  rfl

/-- Claim C5: for every command history holding `n ≤ 15` entries and every `k`
with `1 ≤ k ≤ n`, `msh_run` on a first token `!k`, `k` written with one or two
decimal digits, returns 1 (handled), prints nothing and sets the replay index
`r` to `k`; the cycle that starts with `r = k` reads nothing from standard input
and prints no prompt: it takes entry `in[k-1]` as its input line and dispatches
it with the replay index already reset to 0. -/
theorem replay_directive_accepted (env env2 : Env) (msh : msh_t) (ch : cmdhis_t)
    (ph : pidhis_t) (k : Nat) (ds : Line) (stdin : List Line) (running : Bool)
    (hk1 : 1 ≤ k) (hkn : k ≤ ch.n) (hn : ch.n ≤ 15) (hds : ds ∈ decimal_forms k)
    (hin : msh.in_.headD NUL ≠ NUL) (hcmd : msh.argv.getD 0 [] = '!' :: ds) :
    msh_run env msh ch ph = ⟨1, { ch with r := k }, ph, []⟩
    ∧ obtain_input { ch with r := k } stdin
        = ⟨ch.in_.getD (k - 1) [], { ch with r := 0 }, stdin, []⟩
    ∧ cycle env2 stdin ⟨{ ch with r := k }, ph, running⟩
        = (dispatch env2 (ch.in_.getD (k - 1) []) { ch with r := 0 } ph).map
            (fun p => (p.1, stdin, p.2)) := by
  have hk0 : k ≠ 0 := by omega
  have ho : obtain_input { ch with r := k } stdin
      = ⟨ch.in_.getD (k - 1) [], { ch with r := 0 }, stdin, []⟩ := by
    unfold obtain_input
    rw [if_pos hk0]
  refine ⟨run_directive env msh ch ph k ds hk1 hkn hn hds hin hcmd, ho, ?_⟩
  unfold cycle
  simp only [ho, List.nil_append]

theorem replay_directive_accepted_witness :
    msh_run sample_env (msh_gentok (msh_zero "!03\n".toList)) sample_full ph_zero
      = ⟨1, { sample_full with r := 3 }, ph_zero, []⟩
    ∧ obtain_input { sample_full with r := 3 } ["ls\n".toList]
        = ⟨sample_full.in_.getD (3 - 1) [], { sample_full with r := 0 }, ["ls\n".toList], []⟩
    ∧ cycle sample_env_miss ["ls\n".toList] ⟨{ sample_full with r := 3 }, ph_zero, true⟩
        = (dispatch sample_env_miss (sample_full.in_.getD (3 - 1) [])
            { sample_full with r := 0 } ph_zero).map (fun p => (p.1, ["ls\n".toList], p.2)) :=
  replay_directive_accepted sample_env sample_env_miss (msh_gentok (msh_zero "!03\n".toList))
    sample_full ph_zero 3 "03".toList ["ls\n".toList] true (by decide) (by decide)
    (by decide) (by decide) (by decide) (by decide)

theorem upcmdhis_pending (past : Line) (ch : cmdhis_t) (msh : msh_t) (h : ch.r ≠ 0) :
    msh_upcmdhis past ch msh = ch := by
  unfold msh_upcmdhis
  split_ifs <;> rfl

theorem dispatch_directive (env : Env) (line : Line) (ch : cmdhis_t) (ph : pidhis_t)
    (k : Nat) (ds : Line) (hk1 : 1 ≤ k) (hkn : k ≤ ch.n) (hn : ch.n ≤ 15)
    (hds : ds ∈ decimal_forms k) (hl : NUL ∉ line) (htok : first_token line = '!' :: ds) :
    dispatch env line ch ph = some (⟨{ ch with r := k }, ph, true⟩, []) := by
  have hin : (msh_gentok (msh_zero line)).in_.headD NUL ≠ NUL := by
    rw [gentok_in]
    exact head_of_first_token line hl (by rw [htok]; simp)
  have hrun := run_directive env (msh_gentok (msh_zero line)) ch ph k ds hk1 hkn hn hds
    hin htok
  unfold first_token at htok
  have hk0 : k ≠ 0 := by omega
  unfold dispatch
  simp only [hrun, htok, quit_bang, one_ne_zero, if_false,
    upcmdhis_pending env.past { ch with r := k } _ hk0,
    bang_ne ds "history".toList (by decide)]
  rfl

/-- Claim C6: for every command history holding at least `k` entries
(`1 ≤ k ≤ 15`), a cycle whose input line has the replay directive `!k` as its
first token (e.g. the line `!3`) leaves the stored entries and their count
unchanged, whether the line was read from standard input or taken from the
history: only the replay index changes, to `k`. -/
theorem replay_directive_not_recorded (env : Env) (line : Line) (ch : cmdhis_t)
    (ph : pidhis_t) (rest : List Line) (running : Bool) (k : Nat) (ds : Line)
    (hk1 : 1 ≤ k) (hkn : k ≤ ch.n) (hn : ch.n ≤ 15) (hds : ds ∈ decimal_forms k)
    (hl : NUL ∉ line) (htok : first_token line = '!' :: ds) (hr : ch.r = 0) :
    dispatch env line ch ph = some (⟨{ in_ := ch.in_, n := ch.n, r := k }, ph, true⟩, [])
    ∧ cycle env (line :: rest) ⟨ch, ph, running⟩
        = some (⟨{ in_ := ch.in_, n := ch.n, r := k }, ph, true⟩, rest,
            [Event.out "msh>".toList]) := by
  have hd := dispatch_directive env line ch ph k ds hk1 hkn hn hds hl htok
  refine ⟨hd, ?_⟩
  unfold cycle obtain_input
  simp only [hr, ne_eq, not_true_eq_false, if_false, List.headD_cons, List.tail_cons, hd,
    Option.map_some']
  rfl

theorem replay_directive_not_recorded_witness :
    dispatch sample_env "!3\n".toList sample_full ph_zero
      = some (⟨{ in_ := sample_full.in_, n := sample_full.n, r := 3 }, ph_zero, true⟩, [])
    ∧ cycle sample_env ("!3\n".toList :: []) ⟨sample_full, ph_zero, true⟩
        = some (⟨{ in_ := sample_full.in_, n := sample_full.n, r := 3 }, ph_zero, true⟩, [],
            [Event.out "msh>".toList]) :=
  replay_directive_not_recorded sample_env "!3\n".toList sample_full ph_zero [] true 3
    "3".toList (by decide) (by decide) (by decide) (by decide) (by decide) (by decide)
    (by decide)

/-- Claim C8: for every command history with `n` entries, `msh_run` on a first
token `!rest` parses `r = atoi` of the first two characters of `rest`; when
`1 ≤ r ≤ 15` and `r > n` it prints `Command not in history.` on standard error
and returns 1 (handled); when `r` lies outside `[1,15]` it prints nothing and
returns 0 (not handled); in both cases both histories, the replay index among
them, are left as they were. -/
theorem replay_directive_rejected (env : Env) (msh : msh_t) (ch : cmdhis_t) (ph : pidhis_t)
    (rest : Line) (hin : msh.in_.headD NUL ≠ NUL) (hcmd : msh.argv.getD 0 [] = '!' :: rest) :
    (1 ≤ atoi (rest.take 2) ∧ atoi (rest.take 2) ≤ 15 ∧ atoi (rest.take 2) > ch.n →
      msh_run env msh ch ph
        = ⟨1, ch, ph, [Event.err "Command not in history.\n".toList]⟩)
    ∧ (atoi (rest.take 2) < 1 ∨ 15 < atoi (rest.take 2) →
      msh_run env msh ch ph = ⟨0, ch, ph, []⟩) := by
  have hg : msh_getruncmd ('!' :: rest)
      = if atoi (rest.take 2) < 0 ∨ atoi (rest.take 2) > 15 then 0
        else atoi (rest.take 2) := rfl
  rw [run_bang env msh ch ph rest hin hcmd]
  constructor
  · rintro ⟨h1, h2, h3⟩
    have hv : msh_getruncmd ('!' :: rest) = atoi (rest.take 2) := by
      rw [hg, if_neg (by omega)]
    rw [hv, if_neg (by omega), if_pos h3]
  · intro h
    have hv : msh_getruncmd ('!' :: rest) = 0 := by
      rw [hg]
      by_cases h0 : atoi (rest.take 2) < 0 ∨ atoi (rest.take 2) > 15
      · rw [if_pos h0]
      · rw [if_neg h0]
        omega
    rw [hv, if_pos rfl]

theorem replay_directive_rejected_witness :
    (msh_run sample_env (msh_gentok (msh_zero "!7\n".toList)) ch_zero ph_zero
        = ⟨1, ch_zero, ph_zero, [Event.err "Command not in history.\n".toList]⟩)
    ∧ (msh_run sample_env (msh_gentok (msh_zero "!99\n".toList)) ch_zero ph_zero
        = ⟨0, ch_zero, ph_zero, []⟩)
    ∧ (msh_run sample_env (msh_gentok (msh_zero "!0\n".toList)) ch_zero ph_zero
        = ⟨0, ch_zero, ph_zero, []⟩) :=
  ⟨(replay_directive_rejected sample_env (msh_gentok (msh_zero "!7\n".toList)) ch_zero
      ph_zero "7".toList (by decide) (by decide)).1 (by decide),
   (replay_directive_rejected sample_env (msh_gentok (msh_zero "!99\n".toList)) ch_zero
      ph_zero "99".toList (by decide) (by decide)).2 (by decide),
   (replay_directive_rejected sample_env (msh_gentok (msh_zero "!0\n".toList)) ch_zero
      ph_zero "0".toList (by decide) (by decide)).2 (by decide)⟩

/-- Claim C9 fails at a full history: on the line `!16` with 15 stored entries,
`msh_run` returns 0 (not handled) and prints nothing, in particular not
`Command not in history.`; the cycle then forks a child and, the child reporting
that nothing could be executed, prints `!16: Command not found.`. -/
theorem bang16_full_counterexample :
    sample_full.n = 15
    ∧ msh_run sample_env_miss (msh_gentok (msh_zero "!16\n".toList)) sample_full ph_zero
        = ⟨0, sample_full, ph_zero, []⟩
    ∧ Event.err "Command not in history.\n".toList ∉
        (msh_run sample_env_miss (msh_gentok (msh_zero "!16\n".toList)) sample_full
          ph_zero).events
    ∧ (cycle sample_env_miss ["!16\n".toList] ⟨sample_full, ph_zero, true⟩).map
          (fun r => r.2.2)
        = some [Event.out "msh>".toList, Event.spawn 100,
                Event.err "!16: Command not found.\n".toList] := by
  decide

/-- Claim C9 as amended: with a full command history (count 15) the directive
`!16` is out of bounds for `msh_getruncmd` (16 > `MAX_CMDHIS`), so `msh_run`
prints no history error and returns 0 (not handled), leaving both histories as
they were; the cycle goes on to the process launcher, and when the child
reports that no program could be executed the cycle prints
`!16: Command not found.` and records the line as the newest history entry. -/
theorem bang16_not_handled (env : Env) (msh : msh_t) (ch : cmdhis_t) (ph : pidhis_t)
    (rest : List Line) (running : Bool)
    (hn : ch.n = 15) (hlen : ch.in_.length = 15) (hr : ch.r = 0)
    (hin : msh.in_.headD NUL ≠ NUL) (hcmd : msh.argv.getD 0 [] = "!16".toList)
    (hfork : env.fork > 0) (hstatus : env.status = EXIT_FAILURE * 2 ^ 8) :
    msh_run env msh ch ph = ⟨0, ch, ph, []⟩
    ∧ cycle env ("!16\n".toList :: rest) ⟨ch, ph, running⟩
        = some (⟨{ in_ := ch.in_.tail ++ ["!16\n".toList], n := 15, r := 0 }, ph, true⟩, rest,
            [Event.out "msh>".toList, Event.spawn env.fork,
             Event.err "!16: Command not found.\n".toList]) := by
  have hrun : ∀ m : msh_t, m.in_.headD NUL ≠ NUL → m.argv.getD 0 [] = "!16".toList →
      msh_run env m ch ph = ⟨0, ch, ph, []⟩ := by
    intro m h1 h2
    rw [run_bang env m ch ph "16".toList h1 h2, if_pos (by decide)]
  refine ⟨hrun msh hin hcmd, ?_⟩
  have hm : msh_gentok (msh_zero "!16\n".toList)
      = ⟨"!16\n".toList, "!16".toList :: List.replicate 9 [], 1⟩ := by decide
  have hup := upcmdhis_full env.past ch (msh_gentok (msh_zero "!16\n".toList)) hlen hn hr
    (by decide)
  have hproc : ∀ m : msh_t, msh_runproc env m ph = some ⟨0, ph, [Event.spawn env.fork]⟩ := by
    intro m
    unfold msh_runproc
    rw [if_pos hfork, if_pos hstatus]
  have hr1 := hrun (msh_gentok (msh_zero "!16\n".toList)) (by decide) (by decide)
  unfold cycle obtain_input dispatch
  simp only [hr, ne_eq, not_true_eq_false, if_false, List.headD_cons, List.tail_cons, hr1,
    if_true, hproc, hup, Option.map_some']
  rw [hm]
  rfl

theorem bang16_not_handled_witness :
    msh_run sample_env_miss (msh_gentok (msh_zero "!16\n".toList)) sample_full ph_zero
      = ⟨0, sample_full, ph_zero, []⟩
    ∧ cycle sample_env_miss ("!16\n".toList :: []) ⟨sample_full, ph_zero, true⟩
        = some (⟨{ in_ := sample_full.in_.tail ++ ["!16\n".toList], n := 15, r := 0 },
                  ph_zero, true⟩, [],
            [Event.out "msh>".toList, Event.spawn sample_env_miss.fork,
             Event.err "!16: Command not found.\n".toList]) :=
  bang16_not_handled sample_env_miss (msh_gentok (msh_zero "!16\n".toList)) sample_full
    ph_zero [] true (by decide) (by decide) (by decide) (by decide) (by decide) (by decide)
    (by decide)

theorem getruncmd_nonneg (cmd : Line) : 0 ≤ msh_getruncmd cmd := by
  have e : msh_getruncmd cmd
      = if atoi ((cmd.drop 1).take 2) < 0 ∨ atoi ((cmd.drop 1).take 2) > MAX_CMDHIS then 0
        else atoi ((cmd.drop 1).take 2) := rfl
  rw [e]
  split_ifs with hc
  · exact le_refl 0
  · push_neg at hc
    exact hc.1

theorem dispatch_ch (env : Env) (l : Line) (ch : cmdhis_t) (ph : pidhis_t)
    (hfork : env.fork ≠ 0) :
    ∃ ph1 run ev, dispatch env l ch ph
      = some (⟨msh_upcmdhis env.past (msh_run env (msh_gentok (msh_zero l)) ch ph).ch
                (msh_gentok (msh_zero l)), ph1, run⟩, ev) := by
  obtain ⟨r2, hr2⟩ : ∃ r2,
      (if (msh_run env (msh_gentok (msh_zero l)) ch ph).handled = 0 then
          msh_runproc env (msh_gentok (msh_zero l))
            (msh_run env (msh_gentok (msh_zero l)) ch ph).ph
        else some ⟨(msh_run env (msh_gentok (msh_zero l)) ch ph).handled,
          (msh_run env (msh_gentok (msh_zero l)) ch ph).ph, []⟩) = some r2 := by
    split_ifs
    · exact runproc_returns env _ _ hfork
    · exact ⟨_, rfl⟩
  unfold dispatch
  simp only [hr2]
  exact ⟨_, _, _, rfl⟩

theorem upcmdhis_blank (past : Line) (ch : cmdhis_t) (msh : msh_t)
    (h : (msh.argv.getD 0 []).headD NUL = NUL) : msh_upcmdhis past ch msh = ch := by
  unfold msh_upcmdhis
  rw [if_pos h]

theorem run_ch_cases (env : Env) (l : Line) (ch : cmdhis_t) (ph : pidhis_t) (hl : NUL ∉ l) :
    (is_accepted_replay ch.n (first_token l) = false →
      (msh_run env (msh_gentok (msh_zero l)) ch ph).ch = ch)
    ∧ (is_accepted_replay ch.n (first_token l) = true →
      (msh_run env (msh_gentok (msh_zero l)) ch ph).ch
        = { ch with r := (msh_getruncmd (first_token l)).toNat }
      ∧ (msh_getruncmd (first_token l)).toNat ≠ 0) := by
  by_cases hb : (first_token l).headD NUL = '!'
  · obtain ⟨rest, hrest⟩ : ∃ rest, first_token l = '!' :: rest := by
      cases hf : first_token l with
      | nil =>
        rw [hf] at hb
        exact absurd hb (by decide)
      | cons a t =>
        rw [hf] at hb
        exact ⟨t, by simpa using hb⟩
    have hin : (msh_gentok (msh_zero l)).in_.headD NUL ≠ NUL := by
      rw [gentok_in]
      exact head_of_first_token l hl (by rw [hrest]; simp)
    have hrun := run_bang env (msh_gentok (msh_zero l)) ch ph rest hin hrest
    unfold is_accepted_replay
    rw [hrest] at hb ⊢
    simp only [hb, beq_self_eq_true, Bool.true_and, Bool.and_eq_false_iff, Bool.and_eq_true,
      bne_iff_ne, ne_eq, decide_eq_true_eq, decide_eq_false_iff_not, not_le,
      bne_eq_false_iff_eq]
    constructor
    · rintro (h | h)
      · rw [hrun, if_pos h]
      · by_cases h0 : msh_getruncmd ('!' :: rest) = 0
        · rw [hrun, if_pos h0]
        · rw [hrun, if_neg h0, if_pos h]
    · rintro ⟨h0, h1⟩
      rw [hrun, if_neg h0, if_neg (not_lt.mpr h1)]
      refine ⟨rfl, ?_⟩
      have hpos := getruncmd_nonneg ('!' :: rest)
      omega
  · constructor
    · intro _
      exact run_ch_of_not_bang env _ ch ph hb
    · intro h
      unfold is_accepted_replay at h
      simp only [Bool.and_eq_true, beq_iff_eq] at h
      exact absurd h.1.1 hb

/-- Claim C7 fails for an ordinary replayed command: from the start state the
lines `ls` and `!1` lead to a state with one stored entry and replay index 1;
the replay cycle that follows stores the line `ls` a second time, the count
going from 1 to 2. -/
theorem replay_cycle_appends_counterexample :
    (run_cycles [sample_env, sample_env] ["ls\n".toList, "!1\n".toList] init).map
        (fun r => r.1) = some replay_pending
    ∧ replay_pending.ch.r ≠ 0 ∧ replay_pending.ch.n = 1
    ∧ stored replay_pending.ch = ["ls\n".toList]
    ∧ (cycle sample_env [] replay_pending).map (fun r => (r.1.ch.n, stored r.1.ch))
        = some (2, ["ls\n".toList, "ls\n".toList]) := by
  decide

/-- Claim C7 as amended: a replay cycle (replay index not zero at its start)
reads nothing from standard input and clears the replay index before
dispatching; when the replayed line has a non-empty first token and is not
itself an accepted replay directive, the cycle records it once more as the
newest entry, exactly as for a fresh line (one more entry below 15 entries, the
oldest entry dropped at 15); when the replayed line has an empty first token,
or is itself an accepted replay directive, the stored entries and their count
are left as they were. -/
theorem replay_cycle_records (env : Env) (s : State) (stdin : List Line) (line : Line)
    (hr : s.ch.r ≠ 0) (hline : line = s.ch.in_.getD (s.ch.r - 1) []) (hl : NUL ∉ line)
    (hfork : env.fork ≠ 0) (hlen : s.ch.in_.length = 15) (hn : s.ch.n ≤ 15) :
    ∃ s1 ev, cycle env stdin s = some (s1, stdin, ev)
      ∧ ((first_token line).headD NUL ≠ NUL →
          is_accepted_replay s.ch.n (first_token line) = false →
            s1.ch.r = 0 ∧ s1.ch.n = min (s.ch.n + 1) 15
            ∧ stored s1.ch = (stored s.ch ++ [line]).drop (s.ch.n + 1 - 15))
      ∧ ((first_token line).headD NUL = NUL → s1.ch = { s.ch with r := 0 })
      ∧ (is_accepted_replay s.ch.n (first_token line) = true →
          s1.ch = { s.ch with r := (msh_getruncmd (first_token line)).toNat }) := by
  obtain ⟨ph1, run, ev, hd⟩ := dispatch_ch env line { s.ch with r := 0 } s.ph hfork
  have hc : cycle env stdin s
      = some (⟨msh_upcmdhis env.past
          (msh_run env (msh_gentok (msh_zero line)) { s.ch with r := 0 } s.ph).ch
          (msh_gentok (msh_zero line)), ph1, run⟩, stdin, ev) := by
    unfold cycle obtain_input
    simp only [hr, ne_eq, not_false_eq_true, if_true, ← hline, hd, Option.map_some',
      List.nil_append]
  obtain ⟨c1, c2⟩ := run_ch_cases env line { s.ch with r := 0 } s.ph hl
  refine ⟨_, _, hc, ?_, ?_, ?_⟩
  · intro hne hna
    simp only
    rw [c1 hna]
    obtain ⟨u1, u2, u3, u4⟩ := upcmdhis_stored env.past { s.ch with r := 0 }
      (msh_gentok (msh_zero line)) hlen hn rfl hne
    rw [gentok_in] at u4
    exact ⟨u1, u3, u4⟩
  · intro hblank
    have hna : is_accepted_replay s.ch.n (first_token line) = false := by
      unfold is_accepted_replay
      rw [hblank]
      rfl
    simp only
    rw [c1 hna]
    exact upcmdhis_blank _ _ _ hblank
  · intro ha
    obtain ⟨e1, e2⟩ := c2 ha
    simp only
    rw [e1]
    exact upcmdhis_pending _ _ _ e2

theorem replay_cycle_records_witness :
    ∃ s1 ev, cycle sample_env [] replay_pending = some (s1, [], ev)
      ∧ ((first_token "ls\n".toList).headD NUL ≠ NUL →
          is_accepted_replay replay_pending.ch.n (first_token "ls\n".toList) = false →
            s1.ch.r = 0 ∧ s1.ch.n = min (replay_pending.ch.n + 1) 15
            ∧ stored s1.ch
                = (stored replay_pending.ch ++ ["ls\n".toList]).drop
                    (replay_pending.ch.n + 1 - 15))
      ∧ ((first_token "ls\n".toList).headD NUL = NUL →
          s1.ch = { replay_pending.ch with r := 0 })
      ∧ (is_accepted_replay replay_pending.ch.n (first_token "ls\n".toList) = true →
          s1.ch = { replay_pending.ch with
                    r := (msh_getruncmd (first_token "ls\n".toList)).toNat }) :=
  replay_cycle_records sample_env replay_pending [] "ls\n".toList (by decide) (by decide)
    (by decide) (by decide) (by decide) (by decide)

/-! ## Launcher outcome, `bg`, and which first tokens are handled -/

/-- Claim C15: on a non-empty line whose first token is `bg`, when the process
history has a non-zero current pid `p`, `msh_run` sends the continue signal to
`p`, sets `cur` to 0 and returns 1 (handled), leaving the stored pids, their
count and the command history unchanged; when `cur` is 0 it returns 0 (not
handled), prints nothing and changes nothing. -/
theorem bg_resumes_current (env : Env) (msh : msh_t) (ch : cmdhis_t) (ph : pidhis_t)
    (hin : msh.in_.headD NUL ≠ NUL) (hcmd : msh.argv.getD 0 [] = "bg".toList) :
    (ph.cur ≠ 0 →
      msh_run env msh ch ph
        = ⟨1, ch, { pid := ph.pid, cur := 0, n := ph.n }, [Event.kill ph.cur]⟩)
    ∧ (ph.cur = 0 → msh_run env msh ch ph = ⟨0, ch, ph, []⟩) := by
  unfold msh_run
  simp only [hcmd]
  rw [if_neg hin, if_neg (by decide), if_neg (by decide), if_neg (by decide),
    if_neg (by decide), if_neg (by decide), if_neg (by decide)]
  constructor
  · intro h
    rw [if_pos (show True ∧ ph.cur ≠ 0 from ⟨trivial, h⟩)]
  · intro h
    rw [if_neg (show ¬ (True ∧ ph.cur ≠ 0) from fun hc => hc.2 h)]

theorem bg_resumes_current_witness :
    (replay_pending.ph.cur ≠ 0 →
      msh_run sample_env (msh_gentok (msh_zero "bg\n".toList)) ch_zero replay_pending.ph
        = ⟨1, ch_zero, { pid := replay_pending.ph.pid, cur := 0, n := replay_pending.ph.n },
            [Event.kill replay_pending.ph.cur]⟩)
    ∧ (replay_pending.ph.cur = 0 →
      msh_run sample_env (msh_gentok (msh_zero "bg\n".toList)) ch_zero replay_pending.ph
        = ⟨0, ch_zero, replay_pending.ph, []⟩) :=
  bg_resumes_current sample_env (msh_gentok (msh_zero "bg\n".toList)) ch_zero
    replay_pending.ph (by decide) (by decide)

theorem getruncmd_ne_zero_iff (t : Line) :
    msh_getruncmd t ≠ 0 ↔ (1 ≤ atoi ((t.drop 1).take 2) ∧ atoi ((t.drop 1).take 2) ≤ 15) := by
  have e : msh_getruncmd t
      = if atoi ((t.drop 1).take 2) < 0 ∨ atoi ((t.drop 1).take 2) > MAX_CMDHIS then 0
        else atoi ((t.drop 1).take 2) := rfl
  have hm : ((MAX_CMDHIS : Nat) : Int) = 15 := rfl
  rw [e]
  split_ifs with hc
  · rw [hm] at hc
    constructor
    · intro h
      exact absurd rfl h
    · intro h
      omega
  · rw [hm] at hc
    constructor
    · intro h
      omega
    · intro h
      omega

theorem run_handled_iff (env : Env) (msh : msh_t) (ch : cmdhis_t) (ph : pidhis_t)
    (hin : msh.in_.headD NUL ≠ NUL) (htok : (msh.argv.getD 0 []).headD NUL ≠ NUL) :
    ((msh_run env msh ch ph).handled = 1 ↔ builtin_surface (msh.argv.getD 0 []) ph.cur)
    ∧ ((msh_run env msh ch ph).handled = 0 ∨ (msh_run env msh ch ph).handled = 1) := by
  unfold msh_run builtin_surface
  simp only
  rw [if_neg hin, if_neg htok]
  by_cases hq : msh_quit (msh.argv.getD 0 []) = true
  · rw [if_pos hq]
    refine ⟨⟨fun _ => ?_, fun _ => rfl⟩, Or.inr rfl⟩
    unfold msh_quit at hq
    simp only [Bool.or_eq_true, decide_eq_true_eq] at hq
    rcases hq with h | h
    · exact Or.inl h
    · exact Or.inr (Or.inl h)
  rw [if_neg hq]
  have hq1 : msh.argv.getD 0 [] ≠ "quit".toList := by
    intro h
    exact hq (by rw [h]; decide)
  have hq2 : msh.argv.getD 0 [] ≠ "exit".toList := by
    intro h
    exact hq (by rw [h]; decide)
  by_cases hcd : msh.argv.getD 0 [] = "cd".toList
  · rw [if_pos hcd]
    exact ⟨⟨fun _ => Or.inr (Or.inr (Or.inl hcd)), fun _ => rfl⟩, Or.inr rfl⟩
  rw [if_neg hcd]
  by_cases hh : msh.argv.getD 0 [] = "history".toList
  · rw [if_pos hh]
    exact ⟨⟨fun _ => Or.inr (Or.inr (Or.inr (Or.inl hh))), fun _ => rfl⟩, Or.inr rfl⟩
  rw [if_neg hh]
  by_cases hs : msh.argv.getD 0 [] = "showpids".toList
  · rw [if_pos hs]
    exact ⟨⟨fun _ => Or.inr (Or.inr (Or.inr (Or.inr (Or.inl hs)))), fun _ => rfl⟩, Or.inr rfl⟩
  rw [if_neg hs]
  by_cases hb : (msh.argv.getD 0 []).headD NUL = '!'
  · rw [if_pos hb]
    have hbg : msh.argv.getD 0 [] ≠ "bg".toList := by
      intro h
      rw [h] at hb
      exact absurd hb (by decide)
    have hiff := getruncmd_ne_zero_iff (msh.argv.getD 0 [])
    by_cases h0 : msh_getruncmd (msh.argv.getD 0 []) = 0
    · rw [if_pos h0]
      refine ⟨⟨fun h => absurd h Nat.zero_ne_one, fun h => ?_⟩, Or.inl rfl⟩
      rcases h with h | h | h | h | h | h | h
      · exact absurd h hq1
      · exact absurd h hq2
      · exact absurd h hcd
      · exact absurd h hh
      · exact absurd h hs
      · exact absurd h0 (hiff.mpr h.2)
      · exact absurd h.1 hbg
    · rw [if_neg h0]
      have hr : builtin_surface (msh.argv.getD 0 []) ph.cur :=
        Or.inr (Or.inr (Or.inr (Or.inr (Or.inr (Or.inl ⟨hb, hiff.mp h0⟩)))))
      unfold builtin_surface at hr
      split_ifs
      · exact ⟨⟨fun _ => hr, fun _ => rfl⟩, Or.inr rfl⟩
      · exact ⟨⟨fun _ => hr, fun _ => rfl⟩, Or.inr rfl⟩
  rw [if_neg hb]
  by_cases hbg : msh.argv.getD 0 [] = "bg".toList ∧ ph.cur ≠ 0
  · rw [if_pos hbg]
    exact ⟨⟨fun _ => Or.inr (Or.inr (Or.inr (Or.inr (Or.inr (Or.inr hbg))))), fun _ => rfl⟩,
      Or.inr rfl⟩
  · rw [if_neg hbg]
    refine ⟨⟨fun h => absurd h Nat.zero_ne_one, fun h => ?_⟩, Or.inl rfl⟩
    rcases h with h | h | h | h | h | h | h
    · exact absurd h hq1
    · exact absurd h hq2
    · exact absurd h hcd
    · exact absurd h hh
    · exact absurd h hs
    · exact absurd h.1 hb
    · exact absurd h hbg

/-- Claim C17: for every non-empty input line with a non-empty first token `t`,
`msh_run` returns 1 (handled) if and only if `t` is exactly one of `quit`,
`exit`, `cd`, `history`, `showpids`, or begins with `!` and the number `atoi`
parses from its next one or two characters lies in `[1,15]`, or is exactly `bg`
while the process history has a non-zero current pid; otherwise it returns 0;
two calls that agree on the first token and on the current pid return the same
value, whatever the later tokens, the rest of the line, the histories and the
environment. -/
theorem run_handles_builtin_surface (env env2 : Env) (msh msh2 : msh_t)
    (ch ch2 : cmdhis_t) (ph ph2 : pidhis_t)
    (hin : msh.in_.headD NUL ≠ NUL) (htok : (msh.argv.getD 0 []).headD NUL ≠ NUL)
    (hin2 : msh2.in_.headD NUL ≠ NUL) (hsame : msh2.argv.getD 0 [] = msh.argv.getD 0 [])
    (hcur : ph2.cur = ph.cur) :
    ((msh_run env msh ch ph).handled = 1 ↔ builtin_surface (msh.argv.getD 0 []) ph.cur)
    ∧ ((msh_run env msh ch ph).handled = 0 ↔ ¬ builtin_surface (msh.argv.getD 0 []) ph.cur)
    ∧ (msh_run env2 msh2 ch2 ph2).handled = (msh_run env msh ch ph).handled := by
  obtain ⟨h1, h2⟩ := run_handled_iff env msh ch ph hin htok
  obtain ⟨h3, h4⟩ := run_handled_iff env2 msh2 ch2 ph2 hin2 (by rw [hsame]; exact htok)
  rw [hsame, hcur] at h3
  refine ⟨h1, ?_, ?_⟩
  · constructor
    · intro h hb
      have := h1.mpr hb
      omega
    · intro h
      rcases h2 with h5 | h5
      · exact h5
      · exact absurd (h1.mp h5) h
  · by_cases hb : builtin_surface (msh.argv.getD 0 []) ph.cur
    · rw [h1.mpr hb, h3.mpr hb]
    · rcases h2 with h5 | h5
      · rcases h4 with h6 | h6
        · rw [h5, h6]
        · exact absurd (h3.mp h6) hb
      · exact absurd (h1.mp h5) hb

theorem run_handles_builtin_surface_witness :
    ((msh_run sample_env (msh_gentok (msh_zero "cd /tmp\n".toList)) ch_zero ph_zero).handled
        = 1 ↔
      builtin_surface ((msh_gentok (msh_zero "cd /tmp\n".toList)).argv.getD 0 []) ph_zero.cur)
    ∧ ((msh_run sample_env (msh_gentok (msh_zero "cd /tmp\n".toList)) ch_zero ph_zero).handled
        = 0 ↔
      ¬ builtin_surface ((msh_gentok (msh_zero "cd /tmp\n".toList)).argv.getD 0 [])
          ph_zero.cur)
    ∧ (msh_run sample_env_miss (msh_gentok (msh_zero "cd ..\n".toList)) sample_full
          ph_zero).handled
        = (msh_run sample_env (msh_gentok (msh_zero "cd /tmp\n".toList)) ch_zero
            ph_zero).handled :=
  run_handles_builtin_surface sample_env sample_env_miss
    (msh_gentok (msh_zero "cd /tmp\n".toList)) (msh_gentok (msh_zero "cd ..\n".toList))
    ch_zero sample_full ph_zero ph_zero (by decide) (by decide) (by decide) (by decide)
    (by decide)

/-! ## One cycle of the interpreter loop, in general -/

theorem dispatch_unfold (env : Env) (l : Line) (ch : cmdhis_t) (ph : pidhis_t) :
    dispatch env l ch ph =
      (if (msh_run env (msh_gentok (msh_zero l)) ch ph).handled = 0 then
          msh_runproc env (msh_gentok (msh_zero l))
            (msh_run env (msh_gentok (msh_zero l)) ch ph).ph
        else some ⟨(msh_run env (msh_gentok (msh_zero l)) ch ph).handled,
          (msh_run env (msh_gentok (msh_zero l)) ch ph).ph, []⟩).map
        (fun r2 =>
          (⟨msh_upcmdhis env.past (msh_run env (msh_gentok (msh_zero l)) ch ph).ch
              (msh_gentok (msh_zero l)), r2.ph, !(msh_quit (first_token l))⟩,
            (msh_run env (msh_gentok (msh_zero l)) ch ph).events ++ r2.events
              ++ (if r2.handled = 0 then
                    [Event.err (first_token l ++ ": Command not found.\n".toList)]
                  else [])
              ++ (if first_token l = "history".toList then
                    msh_showcmdhis (msh_upcmdhis env.past
                      (msh_run env (msh_gentok (msh_zero l)) ch ph).ch
                      (msh_gentok (msh_zero l)))
                  else []))) := by
  unfold dispatch first_token
  simp only
  cases (if (msh_run env (msh_gentok (msh_zero l)) ch ph).handled = 0 then
          msh_runproc env (msh_gentok (msh_zero l))
            (msh_run env (msh_gentok (msh_zero l)) ch ph).ph
        else some ⟨(msh_run env (msh_gentok (msh_zero l)) ch ph).handled,
          (msh_run env (msh_gentok (msh_zero l)) ch ph).ph, []⟩) with
  | none => rfl
  | some r2 => rfl

theorem quit_iff (t : Line) : msh_quit t = true ↔ (t = "quit".toList ∨ t = "exit".toList) := by
  unfold msh_quit
  simp only [Bool.or_eq_true, decide_eq_true_eq]

theorem cycle_running (env : Env) (stdin : List Line) (s : State) (hfork : env.fork ≠ 0) :
    ∃ s1 ev, cycle env stdin s = some (s1, (obtain_input s.ch stdin).stdin, ev)
      ∧ s1.running = !(msh_quit (first_token (obtain_input s.ch stdin).line)) := by
  obtain ⟨r2, hr2⟩ : ∃ r2,
      (if (msh_run env (msh_gentok (msh_zero (obtain_input s.ch stdin).line))
            (obtain_input s.ch stdin).ch s.ph).handled = 0 then
          msh_runproc env (msh_gentok (msh_zero (obtain_input s.ch stdin).line))
            (msh_run env (msh_gentok (msh_zero (obtain_input s.ch stdin).line))
              (obtain_input s.ch stdin).ch s.ph).ph
        else some ⟨(msh_run env (msh_gentok (msh_zero (obtain_input s.ch stdin).line))
            (obtain_input s.ch stdin).ch s.ph).handled,
          (msh_run env (msh_gentok (msh_zero (obtain_input s.ch stdin).line))
            (obtain_input s.ch stdin).ch s.ph).ph, []⟩) = some r2 := by
    split_ifs
    · exact runproc_returns env _ _ hfork
    · exact ⟨_, rfl⟩
  unfold cycle
  simp only
  rw [dispatch_unfold, hr2]
  exact ⟨_, _, rfl, rfl⟩

set_option maxRecDepth 20000 in
theorem other_inputs_not_quit :
    ∀ l ∈ [[], "\n".toList, "  \t \n".toList, List.replicate 254 'a',
            "foobarbaz\n".toList, "!0\n".toList, "!99\n".toList, "QUIT\n".toList],
      first_token l ≠ "quit".toList ∧ first_token l ≠ "exit".toList := by
  decide

/-! ## The `history` listing and unknown commands -/

theorem stored_getD (ch : cmdhis_t) (i : Nat) (h : i < ch.n) :
    (stored ch).getD i [] = ch.in_.getD i [] := by
  unfold stored
  simp [List.getD_eq_getElem?_getD, List.getElem?_take, h]

theorem showcmdhis_eq (ch : cmdhis_t) :
    msh_showcmdhis ch = (List.range ch.n).map
      (fun (i : Nat) => Event.out (fmt_d ((i : Int) + 1) ++ ": ".toList ++ ch.in_.getD i [])) := by
  unfold msh_showcmdhis
  split_ifs with h
  · rw [h]
    rfl
  · rfl

theorem showcmdhis_item (ch : cmdhis_t) (i : Nat) (h : i < ch.n) :
    (msh_showcmdhis ch)[i]?
      = some (Event.out (fmt_d ((i : Int) + 1) ++ ": ".toList ++ (stored ch).getD i [])) := by
  rw [showcmdhis_eq, stored_getD ch i h]
  simp [List.getElem?_map, List.getElem?_range, h]

theorem drop_log_last {α : Type} (A : List α) (x : α) (hA : A.length ≤ 15) :
    ((A ++ [x]).drop (A.length + 1 - 15)).length = min (A.length + 1) 15
    ∧ ∀ d : α, ((A ++ [x]).drop (A.length + 1 - 15)).getD (min (A.length + 1) 15 - 1) d = x := by
  constructor
  · simp only [List.length_drop, List.length_append, List.length_singleton]
    omega
  · intro d
    rw [List.getD_eq_getElem?_getD, List.getElem?_drop]
    have e : A.length + 1 - 15 + (min (A.length + 1) 15 - 1) = A.length := by omega
    rw [e]
    simp

theorem run_history (env : Env) (msh : msh_t) (ch : cmdhis_t) (ph : pidhis_t)
    (hin : msh.in_.headD NUL ≠ NUL) (hcmd : msh.argv.getD 0 [] = "history".toList) :
    msh_run env msh ch ph = ⟨1, ch, ph, []⟩ := by
  unfold msh_run
  simp only [hcmd]
  rw [if_neg hin, if_neg (by decide), if_neg (by decide), if_neg (by decide),
    if_pos trivial]

theorem dispatch_history (env : Env) (line : Line) (ch : cmdhis_t) (ph : pidhis_t)
    (hl : NUL ∉ line) (htok : first_token line = "history".toList) :
    dispatch env line ch ph
      = some (⟨msh_upcmdhis env.past ch (msh_gentok (msh_zero line)), ph, true⟩,
          msh_showcmdhis (msh_upcmdhis env.past ch (msh_gentok (msh_zero line)))) := by
  have hin : (msh_gentok (msh_zero line)).in_.headD NUL ≠ NUL := by
    rw [gentok_in]
    exact head_of_first_token line hl (by rw [htok]; decide)
  have hrun := run_history env (msh_gentok (msh_zero line)) ch ph hin htok
  rw [dispatch_unfold, hrun, htok]
  rfl

/-- Claim C11: for every command history with no replay pending, a cycle whose
input line has `history` as its first token records the line before
displaying: the listing printed at the end of the cycle is that of the updated
history, one item `i: entry` per stored entry, numbered from 1 in storage order,
and its last item is the line just entered; from the start state, after the
three commands `ls`, `pwd`, `date` the line `history` prints four items. -/
theorem history_lists_itself (env : Env) (line : Line) (ch : cmdhis_t) (ph : pidhis_t)
    (rest : List Line) (running : Bool)
    (hl : NUL ∉ line) (htok : first_token line = "history".toList)
    (hr : ch.r = 0) (hlen : ch.in_.length = 15) (hn : ch.n ≤ 15) :
    ∃ ch2, cycle env (line :: rest) ⟨ch, ph, running⟩
        = some (⟨ch2, ph, true⟩, rest, Event.out "msh>".toList :: msh_showcmdhis ch2)
      ∧ ch2.n = min (ch.n + 1) 15
      ∧ stored ch2 = (stored ch ++ [line]).drop (ch.n + 1 - 15)
      ∧ (msh_showcmdhis ch2).length = ch2.n
      ∧ (∀ i, i < ch2.n → (msh_showcmdhis ch2)[i]?
          = some (Event.out (fmt_d ((i : Int) + 1) ++ ": ".toList ++ (stored ch2).getD i [])))
      ∧ (msh_showcmdhis ch2).getLast?
          = some (Event.out (fmt_d (ch2.n : Int) ++ ": ".toList ++ line))
      ∧ (run_cycles (List.replicate 4 sample_env)
            ["ls\n".toList, "pwd\n".toList, "date\n".toList, "history\n".toList] init).map
          (fun r => r.2.2.drop 7)
          = some [Event.out "1: ls\n".toList, Event.out "2: pwd\n".toList,
                  Event.out "3: date\n".toList, Event.out "4: history\n".toList] := by
  have hd := dispatch_history env line ch ph hl htok
  have hne : (first_token line).headD NUL ≠ NUL := by
    rw [htok]
    decide
  obtain ⟨u1, u2, u3, u4⟩ :=
    upcmdhis_stored env.past ch (msh_gentok (msh_zero line)) hlen hn hr hne
  rw [gentok_in] at u4
  have hsn : (stored ch).length = ch.n := by
    unfold stored
    rw [List.length_take]
    omega
  have hlast := drop_log_last (stored ch) line (by omega)
  rw [hsn] at hlast
  have hlenl : (msh_showcmdhis (msh_upcmdhis env.past ch (msh_gentok (msh_zero line)))).length
      = (msh_upcmdhis env.past ch (msh_gentok (msh_zero line))).n := by
    rw [showcmdhis_eq]
    simp
  refine ⟨msh_upcmdhis env.past ch (msh_gentok (msh_zero line)), ?_, u3, u4, hlenl,
    fun i hi => showcmdhis_item _ i hi, ?_, by decide⟩
  · unfold cycle obtain_input
    simp only [hr, ne_eq, not_true_eq_false, if_false, List.headD_cons, List.tail_cons, hd,
      Option.map_some']
    rfl
  · have hpos : 0 < (msh_upcmdhis env.past ch (msh_gentok (msh_zero line))).n := by
      rw [u3]
      omega
    rw [List.getLast?_eq_getElem?, hlenl, showcmdhis_item _ _ (by omega), u4, u3,
      hlast.2 []]
    have e : (((min (ch.n + 1) 15 - 1 : Nat) : Int) + 1) = ((min (ch.n + 1) 15 : Nat) : Int) := by
      omega
    rw [e]

theorem history_lists_itself_witness :
    ∃ ch2, cycle sample_env ("history\n".toList :: []) ⟨sample_full, ph_zero, true⟩
        = some (⟨ch2, ph_zero, true⟩, [], Event.out "msh>".toList :: msh_showcmdhis ch2)
      ∧ ch2.n = min (sample_full.n + 1) 15
      ∧ stored ch2 = (stored sample_full ++ ["history\n".toList]).drop (sample_full.n + 1 - 15)
      ∧ (msh_showcmdhis ch2).length = ch2.n
      ∧ (∀ i, i < ch2.n → (msh_showcmdhis ch2)[i]?
          = some (Event.out (fmt_d ((i : Int) + 1) ++ ": ".toList ++ (stored ch2).getD i [])))
      ∧ (msh_showcmdhis ch2).getLast?
          = some (Event.out (fmt_d (ch2.n : Int) ++ ": ".toList ++ "history\n".toList))
      ∧ (run_cycles (List.replicate 4 sample_env)
            ["ls\n".toList, "pwd\n".toList, "date\n".toList, "history\n".toList] init).map
          (fun r => r.2.2.drop 7)
          = some [Event.out "1: ls\n".toList, Event.out "2: pwd\n".toList,
                  Event.out "3: date\n".toList, Event.out "4: history\n".toList] :=
  history_lists_itself sample_env "history\n".toList sample_full ph_zero [] true
    (by decide) (by decide) (by decide) (by decide) (by decide)

theorem run_not_handled (env : Env) (msh : msh_t) (ch : cmdhis_t) (ph : pidhis_t)
    (h : (msh_run env msh ch ph).handled = 0) : msh_run env msh ch ph = ⟨0, ch, ph, []⟩ := by
  unfold msh_run at h ⊢
  simp only at h ⊢
  by_cases c0 : msh.in_.headD NUL = NUL
  · rw [if_pos c0] at h
    exact absurd h Nat.one_ne_zero
  rw [if_neg c0] at h ⊢
  by_cases c1 : (msh.argv.getD 0 []).headD NUL = NUL
  · rw [if_pos c1] at h
    exact absurd h Nat.one_ne_zero
  rw [if_neg c1] at h ⊢
  by_cases c2 : msh_quit (msh.argv.getD 0 []) = true
  · rw [if_pos c2] at h
    exact absurd h Nat.one_ne_zero
  rw [if_neg c2] at h ⊢
  by_cases c3 : msh.argv.getD 0 [] = "cd".toList
  · rw [if_pos c3] at h
    exact absurd h Nat.one_ne_zero
  rw [if_neg c3] at h ⊢
  by_cases c4 : msh.argv.getD 0 [] = "history".toList
  · rw [if_pos c4] at h
    exact absurd h Nat.one_ne_zero
  rw [if_neg c4] at h ⊢
  by_cases c5 : msh.argv.getD 0 [] = "showpids".toList
  · rw [if_pos c5] at h
    exact absurd h Nat.one_ne_zero
  rw [if_neg c5] at h ⊢
  by_cases c6 : (msh.argv.getD 0 []).headD NUL = '!'
  · rw [if_pos c6] at h ⊢
    by_cases c7 : msh_getruncmd (msh.argv.getD 0 []) = 0
    · rw [if_pos c7]
    · rw [if_neg c7] at h
      by_cases c8 : msh_getruncmd (msh.argv.getD 0 []) > ch.n
      · rw [if_pos c8] at h
        exact absurd h Nat.one_ne_zero
      · rw [if_neg c8] at h
        exact absurd h Nat.one_ne_zero
  rw [if_neg c6] at h ⊢
  by_cases c9 : msh.argv.getD 0 [] = "bg".toList ∧ ph.cur ≠ 0
  · rw [if_pos c9] at h
    exact absurd h Nat.one_ne_zero
  · rw [if_neg c9]

theorem drop_log_prev {α : Type} (B : List α) (x y d : α) (h1 : 1 ≤ B.length)
    (h15 : B.length ≤ 15) (hx : B.getD (B.length - 1) d = x) :
    ((B ++ [y]).drop (B.length + 1 - 15)).getD (min (B.length + 1) 15 - 2) d = x := by
  rw [List.getD_eq_getElem?_getD, List.getElem?_drop]
  have e : B.length + 1 - 15 + (min (B.length + 1) 15 - 2) = B.length - 1 := by omega
  rw [e, List.getElem?_append_left (by omega)]
  rw [List.getD_eq_getElem?_getD] at hx
  exact hx

theorem cycle_not_found (env : Env) (line : Line) (ch : cmdhis_t) (ph : pidhis_t)
    (rest : List Line) (running : Bool)
    (hl : NUL ∉ line) (htok : (first_token line).headD NUL ≠ NUL)
    (hnot : (msh_run env (msh_gentok (msh_zero line)) ch ph).handled = 0)
    (hr : ch.r = 0) (hfork : env.fork > 0) (hstatus : env.status = EXIT_FAILURE * 2 ^ 8) :
    cycle env (line :: rest) ⟨ch, ph, running⟩
      = some (⟨msh_upcmdhis env.past ch (msh_gentok (msh_zero line)), ph, true⟩, rest,
          [Event.out "msh>".toList, Event.spawn env.fork,
           Event.err (first_token line ++ ": Command not found.\n".toList)]) := by
  have hin : (msh_gentok (msh_zero line)).in_.headD NUL ≠ NUL := by
    rw [gentok_in]
    refine head_of_first_token line hl ?_
    intro e
    rw [e] at htok
    exact htok rfl
  have hrun := run_not_handled env _ ch ph hnot
  have hq : msh_quit (first_token line) = false := by
    cases hqc : msh_quit (first_token line) with
    | false => rfl
    | true =>
      have hb : builtin_surface (first_token line) ph.cur := by
        rcases (quit_iff _).mp hqc with h | h
        · exact Or.inl h
        · exact Or.inr (Or.inl h)
      have := (run_handled_iff env (msh_gentok (msh_zero line)) ch ph hin htok).1.mpr hb
      rw [hnot] at this
      exact absurd this Nat.zero_ne_one
  have hbh : first_token line ≠ "history".toList := by
    intro h
    have := run_history env (msh_gentok (msh_zero line)) ch ph hin h
    rw [this] at hnot
    exact absurd hnot Nat.one_ne_zero
  have hproc : msh_runproc env (msh_gentok (msh_zero line)) ph
      = some ⟨0, ph, [Event.spawn env.fork]⟩ := by
    unfold msh_runproc
    rw [if_pos hfork, if_pos hstatus]
  unfold cycle obtain_input
  simp only [hr, ne_eq, not_true_eq_false, if_false, List.headD_cons, List.tail_cons]
  rw [dispatch_unfold, hrun]
  simp only [if_true, hproc, Option.map_some', hq, hbh, if_false]
  rfl

/-- Claim C12: for every fresh input line whose first token `t` is non-empty and
on which `msh_run` returns 0 (no builtin handles it), when the launcher reports
exec failure (the fork succeeded and the wait status is `EXIT_FAILURE << 8`) the
cycle writes exactly `t: Command not found.` to standard error and nothing else
but the prompt, leaves the process history unchanged, and stores the raw line as
the newest command-history entry, so that the listing printed by a following
`history` line has an item for it; for `foobarbaz` from the start state that
listing is `1: foobarbaz`, `2: history`. -/
theorem unknown_command_recorded (env env2 : Env) (line hline : Line) (ch : cmdhis_t)
    (ph : pidhis_t) (rest rest2 : List Line) (running : Bool)
    (hl : NUL ∉ line) (htok : (first_token line).headD NUL ≠ NUL)
    (hnot : (msh_run env (msh_gentok (msh_zero line)) ch ph).handled = 0)
    (hr : ch.r = 0) (hlen : ch.in_.length = 15) (hn : ch.n ≤ 15)
    (hfork : env.fork > 0) (hstatus : env.status = EXIT_FAILURE * 2 ^ 8)
    (hl2 : NUL ∉ hline) (hh : first_token hline = "history".toList) :
    ∃ ch2 ch3, ∃ i : Nat, cycle env (line :: rest) ⟨ch, ph, running⟩
        = some (⟨ch2, ph, true⟩, rest,
            [Event.out "msh>".toList, Event.spawn env.fork,
             Event.err (first_token line ++ ": Command not found.\n".toList)])
      ∧ ch2.r = 0 ∧ ch2.n = min (ch.n + 1) 15
      ∧ stored ch2 = (stored ch ++ [line]).drop (ch.n + 1 - 15)
      ∧ (stored ch2).getD (ch2.n - 1) [] = line
      ∧ cycle env2 (hline :: rest2) ⟨ch2, ph, true⟩
          = some (⟨ch3, ph, true⟩, rest2, Event.out "msh>".toList :: msh_showcmdhis ch3)
      ∧ Event.out (fmt_d ((i : Int) + 1) ++ ": ".toList ++ line) ∈ msh_showcmdhis ch3
      ∧ (run_cycles [sample_env_miss, sample_env]
            ["foobarbaz\n".toList, "history\n".toList] init).map (fun r => r.2.2)
          = some [Event.out "msh>".toList, Event.spawn 100,
                  Event.err "foobarbaz: Command not found.\n".toList,
                  Event.out "msh>".toList,
                  Event.out "1: foobarbaz\n".toList, Event.out "2: history\n".toList] := by
  have hc := cycle_not_found env line ch ph rest running hl htok hnot hr hfork hstatus
  obtain ⟨u1, u2, u3, u4⟩ :=
    upcmdhis_stored env.past ch (msh_gentok (msh_zero line)) hlen hn hr htok
  rw [gentok_in] at u4
  have hsn : (stored ch).length = ch.n := by
    unfold stored
    rw [List.length_take]
    omega
  have hlast := drop_log_last (stored ch) line (by omega)
  rw [hsn] at hlast
  have hne : (first_token hline).headD NUL ≠ NUL := by
    rw [hh]
    decide
  obtain ⟨v1, v2, v3, v4⟩ := upcmdhis_stored env2.past
    (msh_upcmdhis env.past ch (msh_gentok (msh_zero line))) (msh_gentok (msh_zero hline))
    u2 (by rw [u3]; omega) u1 hne
  rw [gentok_in] at v4
  have hd := dispatch_history env2 hline
    (msh_upcmdhis env.past ch (msh_gentok (msh_zero line))) ph hl2 hh
  have hs2 : (stored (msh_upcmdhis env.past ch (msh_gentok (msh_zero line)))).length
      = min (ch.n + 1) 15 := by
    rw [u4]
    exact hlast.1
  have hx : (stored (msh_upcmdhis env.past ch (msh_gentok (msh_zero line)))).getD
      ((stored (msh_upcmdhis env.past ch (msh_gentok (msh_zero line)))).length - 1) [] = line := by
    rw [hs2, u4]
    exact hlast.2 []
  have hprev := drop_log_prev (stored (msh_upcmdhis env.past ch (msh_gentok (msh_zero line))))
    line hline [] (by rw [hs2]; omega) (by rw [hs2]; omega) hx
  rw [hs2] at hprev
  rw [u3] at v3 v4
  rw [← v4] at hprev
  refine ⟨_, msh_upcmdhis env2.past (msh_upcmdhis env.past ch (msh_gentok (msh_zero line)))
    (msh_gentok (msh_zero hline)), min (min (ch.n + 1) 15 + 1) 15 - 2, hc, u1, u3, u4, ?_, ?_,
    ?_, by decide⟩
  · rw [u3, u4]
    exact hlast.2 []
  · unfold cycle obtain_input
    simp only [u1, ne_eq, not_true_eq_false, if_false, List.headD_cons, List.tail_cons, hd,
      Option.map_some']
    rfl
  · have hi := showcmdhis_item (msh_upcmdhis env2.past
      (msh_upcmdhis env.past ch (msh_gentok (msh_zero line))) (msh_gentok (msh_zero hline)))
      (min (min (ch.n + 1) 15 + 1) 15 - 2) (by rw [v3]; omega)
    rw [hprev] at hi
    exact List.getElem?_mem hi

theorem unknown_command_recorded_witness :
    ∃ ch2 ch3, ∃ i : Nat, cycle sample_env_miss ("foobarbaz\n".toList :: [])
          ⟨sample_full, ph_zero, true⟩
        = some (⟨ch2, ph_zero, true⟩, [],
            [Event.out "msh>".toList, Event.spawn sample_env_miss.fork,
             Event.err (first_token "foobarbaz\n".toList ++ ": Command not found.\n".toList)])
      ∧ ch2.r = 0 ∧ ch2.n = min (sample_full.n + 1) 15
      ∧ stored ch2 = (stored sample_full ++ ["foobarbaz\n".toList]).drop (sample_full.n + 1 - 15)
      ∧ (stored ch2).getD (ch2.n - 1) [] = "foobarbaz\n".toList
      ∧ cycle sample_env ("history\n".toList :: []) ⟨ch2, ph_zero, true⟩
          = some (⟨ch3, ph_zero, true⟩, [], Event.out "msh>".toList :: msh_showcmdhis ch3)
      ∧ Event.out (fmt_d ((i : Int) + 1) ++ ": ".toList ++ "foobarbaz\n".toList)
          ∈ msh_showcmdhis ch3
      ∧ (run_cycles [sample_env_miss, sample_env]
            ["foobarbaz\n".toList, "history\n".toList] init).map (fun r => r.2.2)
          = some [Event.out "msh>".toList, Event.spawn 100,
                  Event.err "foobarbaz: Command not found.\n".toList,
                  Event.out "msh>".toList,
                  Event.out "1: foobarbaz\n".toList, Event.out "2: history\n".toList] :=
  unknown_command_recorded sample_env_miss sample_env "foobarbaz\n".toList "history\n".toList
    sample_full ph_zero [] [] true (by decide) (by decide) (by decide) (by decide) (by decide)
    (by decide) (by decide) (by decide) (by decide) (by decide)

/-! ## What ends the interpreter loop -/

theorem cd_events_no_fault (env : Env) (msh : msh_t)
    (h : '/' ∈ env.cwd ∨ msh.argv.getD 1 [] ≠ "..".toList) :
    Event.fault ∉ msh_cd env msh := by
  unfold msh_cd
  by_cases hdd : msh.argv.getD 1 [] = "..".toList
  · rw [if_pos hdd]
    have hc : '/' ∈ env.cwd := by
      rcases h with h | h
      · exact h
      · exact absurd hdd h
    unfold strip_last_dir
    rw [if_pos hc]
    simp
  · rw [if_neg hdd]
    split_ifs <;> simp

theorem run_events_no_fault (env : Env) (msh : msh_t) (ch : cmdhis_t) (ph : pidhis_t)
    (h : '/' ∈ env.cwd ∨ msh.argv.getD 0 [] ≠ "cd".toList
          ∨ msh.argv.getD 1 [] ≠ "..".toList) :
    Event.fault ∉ (msh_run env msh ch ph).events := by
  unfold msh_run
  simp only
  by_cases c0 : msh.in_.headD NUL = NUL
  · rw [if_pos c0]
    simp
  rw [if_neg c0]
  by_cases c1 : (msh.argv.getD 0 []).headD NUL = NUL
  · rw [if_pos c1]
    simp
  rw [if_neg c1]
  by_cases c2 : msh_quit (msh.argv.getD 0 []) = true
  · rw [if_pos c2]
    simp
  rw [if_neg c2]
  by_cases c3 : msh.argv.getD 0 [] = "cd".toList
  · rw [if_pos c3]
    refine cd_events_no_fault env msh ?_
    rcases h with h | h | h
    · exact Or.inl h
    · exact absurd c3 h
    · exact Or.inr h
  rw [if_neg c3]
  by_cases c4 : msh.argv.getD 0 [] = "history".toList
  · rw [if_pos c4]
    simp
  rw [if_neg c4]
  by_cases c5 : msh.argv.getD 0 [] = "showpids".toList
  · rw [if_pos c5]
    unfold msh_showpidhis
    simp
  rw [if_neg c5]
  by_cases c6 : (msh.argv.getD 0 []).headD NUL = '!'
  · rw [if_pos c6]
    split_ifs <;> simp
  rw [if_neg c6]
  split_ifs <;> simp

theorem runproc_events_no_fault (env : Env) (msh : msh_t) (ph : pidhis_t) (r : runproc_t)
    (h : msh_runproc env msh ph = some r) : Event.fault ∉ r.events := by
  unfold msh_runproc at h
  split_ifs at h
  · cases h
    simp
  · cases h
    simp
  · cases h
    simp

theorem showcmdhis_no_fault (ch : cmdhis_t) : Event.fault ∉ msh_showcmdhis ch := by
  rw [showcmdhis_eq]
  simp

theorem cycle_no_fault (env : Env) (stdin : List Line) (s : State) (hfork : env.fork ≠ 0)
    (hcd : '/' ∈ env.cwd ∨ first_token (obtain_input s.ch stdin).line ≠ "cd".toList
            ∨ (msh_gentok (msh_zero (obtain_input s.ch stdin).line)).argv.getD 1 []
                ≠ "..".toList) :
    ∃ s1 ev, cycle env stdin s = some (s1, (obtain_input s.ch stdin).stdin, ev)
      ∧ Event.fault ∉ ev
      ∧ s1.running = !(msh_quit (first_token (obtain_input s.ch stdin).line)) := by
  obtain ⟨r2, hr2⟩ : ∃ r2,
      (if (msh_run env (msh_gentok (msh_zero (obtain_input s.ch stdin).line))
            (obtain_input s.ch stdin).ch s.ph).handled = 0 then
          msh_runproc env (msh_gentok (msh_zero (obtain_input s.ch stdin).line))
            (msh_run env (msh_gentok (msh_zero (obtain_input s.ch stdin).line))
              (obtain_input s.ch stdin).ch s.ph).ph
        else some ⟨(msh_run env (msh_gentok (msh_zero (obtain_input s.ch stdin).line))
            (obtain_input s.ch stdin).ch s.ph).handled,
          (msh_run env (msh_gentok (msh_zero (obtain_input s.ch stdin).line))
            (obtain_input s.ch stdin).ch s.ph).ph, []⟩) = some r2 := by
    split_ifs
    · exact runproc_returns env _ _ hfork
    · exact ⟨_, rfl⟩
  have hr2ev : Event.fault ∉ r2.events := by
    by_cases hh : (msh_run env (msh_gentok (msh_zero (obtain_input s.ch stdin).line))
        (obtain_input s.ch stdin).ch s.ph).handled = 0
    · rw [if_pos hh] at hr2
      exact runproc_events_no_fault env _ _ r2 hr2
    · rw [if_neg hh] at hr2
      cases hr2
      simp
  have hr1ev := run_events_no_fault env (msh_gentok (msh_zero (obtain_input s.ch stdin).line))
    (obtain_input s.ch stdin).ch s.ph hcd
  have hiev : Event.fault ∉ (obtain_input s.ch stdin).events := by
    unfold obtain_input
    split_ifs <;> simp
  unfold cycle
  simp only
  rw [dispatch_unfold, hr2]
  refine ⟨_, _, rfl, ?_, rfl⟩
  simp only [List.mem_append, not_or]
  refine ⟨hiev, ⟨⟨hr1ev, hr2ev⟩, ?_⟩, ?_⟩
  · split_ifs <;> simp
  · split_ifs
    · exact showcmdhis_no_fault _
    · simp

/-- Claim C13 at the input `cd ..` when `getcwd` has failed and left its buffer
empty: the loop of `msh_cd` that strips the last directory starts below the
buffer, an access outside the array after which nothing is guaranteed about the
interpreter loop, although the first token is `cd`.  In every other cycle of the
shell process (`fork` did not return 0; the buffer holds a `/`, or the line is
not `cd ..`) no such access occurs, the cycle completes, and it clears `running`
if and only if the first token of its input line, fresh or replayed, is exactly
`quit` or `exit`, after which no further cycle is executed; an empty buffer
(empty line or end of input), a blank line, a 254-character line, an unknown
command, the rejected directives `!0` and `!99`, and `QUIT` all leave the loop
running. -/
theorem cd_dotdot_after_failed_getcwd :
    first_token "cd ..\n".toList = "cd".toList
    ∧ (msh_gentok (msh_zero "cd ..\n".toList)).argv.getD 1 [] = "..".toList
    ∧ strip_last_dir sample_env_nocwd.cwd = none
    ∧ (cycle sample_env_nocwd ["cd ..\n".toList] init).map (fun r => r.2.2)
        = some [Event.out "msh>".toList, Event.fault]
    ∧ (∀ (env : Env) (envs : List Env) (stdin : List Line) (s : State),
        env.fork ≠ 0 →
        ('/' ∈ env.cwd ∨ first_token (obtain_input s.ch stdin).line ≠ "cd".toList
          ∨ (msh_gentok (msh_zero (obtain_input s.ch stdin).line)).argv.getD 1 []
              ≠ "..".toList) →
        ∃ s1 ev, cycle env stdin s = some (s1, (obtain_input s.ch stdin).stdin, ev)
          ∧ Event.fault ∉ ev
          ∧ (s1.running = false ↔
              (first_token (obtain_input s.ch stdin).line = "quit".toList
                ∨ first_token (obtain_input s.ch stdin).line = "exit".toList))
          ∧ (s1.running = false →
              run_cycles envs (obtain_input s.ch stdin).stdin s1
                = some (s1, (obtain_input s.ch stdin).stdin, [])))
    ∧ (∀ l ∈ [[], "\n".toList, "  \t \n".toList, List.replicate 254 'a',
              "foobarbaz\n".toList, "!0\n".toList, "!99\n".toList, "QUIT\n".toList],
        first_token l ≠ "quit".toList ∧ first_token l ≠ "exit".toList)
    ∧ (cycle sample_env ["quit\n".toList] init).map (fun r => r.1.running) = some false
    ∧ (cycle sample_env ["cd ..\n".toList] init).map (fun r => (r.1.running, r.2.2))
        = some (true, [Event.out "msh>".toList, Event.chdir "/a/b/".toList]) := by
  refine ⟨by decide, by decide, by decide, by decide, ?_, other_inputs_not_quit, by decide,
    by decide⟩
  intro env envs stdin s hfork hcd
  obtain ⟨s1, ev, hc, hnf, hrun⟩ := cycle_no_fault env stdin s hfork hcd
  refine ⟨s1, ev, hc, hnf, ?_, ?_⟩
  · rw [hrun, ← quit_iff]
    cases msh_quit (first_token (obtain_input s.ch stdin).line) <;> simp
  · intro h
    cases envs with
    | nil => rfl
    | cons e es =>
      unfold run_cycles
      rw [h]
      rfl

/-! ## A token that no separator follows -/

theorem gentok_loop_nosep (fin : Line) (hfin : ∀ c ∈ fin, isSep c = false) :
    ∀ (msh : msh_t) (tok : tok_t), gentok_loop fin msh tok = msh := by
  induction fin with
  | nil =>
    intro msh tok
    rfl
  | cons c fin ih =>
    intro msh tok
    have hc : isSep c = false := hfin c (List.mem_cons_self _ _)
    have ih2 := ih (fun x hx => hfin x (List.mem_cons_of_mem _ hx))
    unfold gentok_loop
    split_ifs with h1 h2 h3
    · rw [hc] at h2
      exact absurd h2 (by decide)
    · exact ih2 _ _
    · exact ih2 _ _
    · rfl

theorem gentok_loop_append_nosep (cs fin : Line) (hfin : ∀ c ∈ fin, isSep c = false) :
    ∀ (msh : msh_t) (tok : tok_t),
      gentok_loop (cs ++ fin) msh tok = gentok_loop cs msh tok := by
  induction cs with
  | nil =>
    intro msh tok
    rw [List.nil_append, gentok_loop_nosep fin hfin]
    rfl
  | cons c cs ih =>
    intro msh tok
    rw [List.cons_append]
    unfold gentok_loop
    split_ifs
    · exact ih _ _
    · exact ih _ _
    · exact ih _ _
    · rfl

theorem gentok_loop_other_in (cs : Line) (x : Line) :
    ∀ (msh : msh_t) (tok : tok_t),
      (gentok_loop cs { msh with in_ := x } tok).argv = (gentok_loop cs msh tok).argv
      ∧ (gentok_loop cs { msh with in_ := x } tok).argc = (gentok_loop cs msh tok).argc := by
  induction cs with
  | nil =>
    intro msh tok
    exact ⟨rfl, rfl⟩
  | cons c cs ih =>
    intro msh tok
    unfold gentok_loop
    simp only
    split_ifs with h1 h2 h3
    · have e : (msh_addtok { msh with in_ := x } tok)
          = ({ (msh_addtok msh tok).1 with in_ := x }, (msh_addtok msh tok).2) := by
        unfold msh_addtok
        split_ifs <;> rfl
      rw [e]
      exact ih _ _
    · exact ih _ _
    · exact ih _ _
    · exact ⟨rfl, rfl⟩

theorem dropWhile_blank_append (pre fin : Line) (hfin : ∀ c ∈ fin, isSep c = false) :
    (pre ++ fin).dropWhile isBlank = pre.dropWhile isBlank ++ fin := by
  induction pre with
  | nil =>
    cases fin with
    | nil => rfl
    | cons c fin =>
      have hc : isSep c = false := hfin c (List.mem_cons_self _ _)
      have hb : isBlank c = false := by
        unfold isSep at hc
        unfold isBlank
        simp only [Bool.or_eq_false_iff] at hc ⊢
        exact hc.1
      simp [List.dropWhile_cons, hb]
  | cons x pre ih =>
    by_cases hx : isBlank x = true
    · simp only [List.cons_append, List.dropWhile_cons, hx, if_true]
      exact ih
    · simp only [List.cons_append, List.dropWhile_cons, hx]
      rfl

theorem gentok_append_nosep (pre fin : Line) (hfin : ∀ c ∈ fin, isSep c = false) :
    (msh_gentok (msh_zero (pre ++ fin))).argv = (msh_gentok (msh_zero pre)).argv
    ∧ (msh_gentok (msh_zero (pre ++ fin))).argc = (msh_gentok (msh_zero pre)).argc := by
  have e1 : msh_gentok (msh_zero (pre ++ fin))
      = gentok_loop ((pre ++ fin).dropWhile isBlank)
          { msh_zero pre with in_ := pre ++ fin } tok_zero := rfl
  have e2 : msh_gentok (msh_zero pre)
      = gentok_loop (pre.dropWhile isBlank) (msh_zero pre) tok_zero := rfl
  rw [e1, e2, dropWhile_blank_append pre fin hfin]
  rw [gentok_loop_append_nosep _ fin hfin]
  exact gentok_loop_other_in (pre.dropWhile isBlank) (pre ++ fin) (msh_zero pre) tok_zero

theorem cut_append_final (l : Line) : l = cut_after_last_sep l ++ final_run l := by
  unfold cut_after_last_sep final_run
  rw [← List.reverse_append, List.takeWhile_append_dropWhile, List.reverse_reverse]

theorem final_run_nosep (l : Line) : ∀ c ∈ final_run l, isSep c = false := by
  intro c hc
  unfold final_run at hc
  rw [List.mem_reverse] at hc
  have := List.mem_takeWhile_imp hc
  simpa using this

theorem cut_terminated (l : Line) :
    ∀ c, (cut_after_last_sep l).getLast? = some c → isSep c = true := by
  intro c hc
  unfold cut_after_last_sep at hc
  rw [List.getLast?_reverse] at hc
  have h := List.head?_dropWhile_not (fun c => !isSep c) l.reverse
  rw [hc] at h
  simpa using h

/-- Claim C16: for every input line whose last character is not a space, tab or
newline, the line splits into the part up to and including its last separator
and a non-empty final run of non-separator characters, and `msh_gentok` yields
the same `argv` and the same `argc` as for the line cut just after its last
separator: the final run is not stored; for a line without NUL the stored tokens
are the first 10 runs of the cut line; `echo hi` yields only `echo`, and `ls`
yields no token. -/
theorem gentok_final_run_not_stored (l : Line)
    (hlast : ∃ c, l.getLast? = some c ∧ isSep c = false) :
    l = cut_after_last_sep l ++ final_run l
    ∧ final_run l ≠ []
    ∧ (∀ c ∈ final_run l, isSep c = false)
    ∧ (∀ c, (cut_after_last_sep l).getLast? = some c → isSep c = true)
    ∧ (msh_gentok (msh_zero l)).argv = (msh_gentok (msh_zero (cut_after_last_sep l))).argv
    ∧ (msh_gentok (msh_zero l)).argc = (msh_gentok (msh_zero (cut_after_last_sep l))).argc
    ∧ (NUL ∉ l →
        tokens (msh_gentok (msh_zero l)) = (runs (cut_after_last_sep l)).take 10)
    ∧ tokens (msh_gentok (msh_zero "echo hi".toList)) = ["echo".toList]
    ∧ tokens (msh_gentok (msh_zero "ls".toList)) = [] := by
  have hsplit := cut_append_final l
  have hfin := final_run_nosep l
  have heq := gentok_append_nosep (cut_after_last_sep l) (final_run l) hfin
  rw [← hsplit] at heq
  refine ⟨hsplit, ?_, hfin, cut_terminated l, heq.1, heq.2, ?_, by decide, by decide⟩
  · obtain ⟨c, hc, hs⟩ := hlast
    intro hnil
    rw [hnil, List.append_nil] at hsplit
    rw [hsplit] at hc
    have := cut_terminated l c hc
    rw [hs] at this
    exact absurd this (by decide)
  · intro hnul
    have hnul2 : NUL ∉ cut_after_last_sep l := by
      intro h
      apply hnul
      rw [hsplit]
      exact List.mem_append_left _ h
    obtain ⟨h1, _, _, _⟩ := gentok_spec (cut_after_last_sep l) hnul2
    rw [closed_runs_of_terminated _ (cut_terminated l)] at h1
    unfold tokens at h1 ⊢
    rw [heq.1, heq.2]
    exact h1

theorem gentok_final_run_not_stored_witness :
    "cat  a.txt b.txt".toList
        = cut_after_last_sep "cat  a.txt b.txt".toList ++ final_run "cat  a.txt b.txt".toList
    ∧ final_run "cat  a.txt b.txt".toList ≠ []
    ∧ (∀ c ∈ final_run "cat  a.txt b.txt".toList, isSep c = false)
    ∧ (∀ c, (cut_after_last_sep "cat  a.txt b.txt".toList).getLast? = some c →
        isSep c = true)
    ∧ (msh_gentok (msh_zero "cat  a.txt b.txt".toList)).argv
        = (msh_gentok (msh_zero (cut_after_last_sep "cat  a.txt b.txt".toList))).argv
    ∧ (msh_gentok (msh_zero "cat  a.txt b.txt".toList)).argc
        = (msh_gentok (msh_zero (cut_after_last_sep "cat  a.txt b.txt".toList))).argc
    ∧ (NUL ∉ "cat  a.txt b.txt".toList →
        tokens (msh_gentok (msh_zero "cat  a.txt b.txt".toList))
          = (runs (cut_after_last_sep "cat  a.txt b.txt".toList)).take 10)
    ∧ tokens (msh_gentok (msh_zero "echo hi".toList)) = ["echo".toList]
    ∧ tokens (msh_gentok (msh_zero "ls".toList)) = [] :=
  gentok_final_run_not_stored "cat  a.txt b.txt".toList ⟨'t', by decide, by decide⟩

/-! ## Invariants of the reachable states -/

theorem run_shape (env : Env) (msh : msh_t) (ch : cmdhis_t) (ph : pidhis_t) :
    ((msh_run env msh ch ph).ch = ch
      ∨ ∃ k, 1 ≤ k ∧ k ≤ ch.n ∧ (msh_run env msh ch ph).ch = { ch with r := k })
    ∧ ((msh_run env msh ch ph).ph = ph ∨ (msh_run env msh ch ph).ph = { ph with cur := 0 }) := by
  unfold msh_run
  simp only
  by_cases c0 : msh.in_.headD NUL = NUL
  · rw [if_pos c0]
    exact ⟨Or.inl rfl, Or.inl rfl⟩
  rw [if_neg c0]
  by_cases c1 : (msh.argv.getD 0 []).headD NUL = NUL
  · rw [if_pos c1]
    exact ⟨Or.inl rfl, Or.inl rfl⟩
  rw [if_neg c1]
  by_cases c2 : msh_quit (msh.argv.getD 0 []) = true
  · rw [if_pos c2]
    exact ⟨Or.inl rfl, Or.inl rfl⟩
  rw [if_neg c2]
  by_cases c3 : msh.argv.getD 0 [] = "cd".toList
  · rw [if_pos c3]
    exact ⟨Or.inl rfl, Or.inl rfl⟩
  rw [if_neg c3]
  by_cases c4 : msh.argv.getD 0 [] = "history".toList
  · rw [if_pos c4]
    exact ⟨Or.inl rfl, Or.inl rfl⟩
  rw [if_neg c4]
  by_cases c5 : msh.argv.getD 0 [] = "showpids".toList
  · rw [if_pos c5]
    exact ⟨Or.inl rfl, Or.inl rfl⟩
  rw [if_neg c5]
  by_cases c6 : (msh.argv.getD 0 []).headD NUL = '!'
  · rw [if_pos c6]
    by_cases c7 : msh_getruncmd (msh.argv.getD 0 []) = 0
    · rw [if_pos c7]
      exact ⟨Or.inl rfl, Or.inl rfl⟩
    · rw [if_neg c7]
      by_cases c8 : msh_getruncmd (msh.argv.getD 0 []) > ch.n
      · rw [if_pos c8]
        exact ⟨Or.inl rfl, Or.inl rfl⟩
      · rw [if_neg c8]
        have hpos := getruncmd_nonneg (msh.argv.getD 0 [])
        refine ⟨Or.inr ⟨(msh_getruncmd (msh.argv.getD 0 [])).toNat, ?_, ?_, rfl⟩, Or.inl rfl⟩
        · omega
        · omega
  rw [if_neg c6]
  by_cases c9 : msh.argv.getD 0 [] = "bg".toList ∧ ph.cur ≠ 0
  · rw [if_pos c9]
    exact ⟨Or.inl rfl, Or.inr rfl⟩
  · rw [if_neg c9]
    exact ⟨Or.inl rfl, Or.inl rfl⟩

theorem upcmdhis_inv (past : Line) (ch : cmdhis_t) (msh : msh_t)
    (hlen : ch.in_.length = 15) (hn : ch.n ≤ 15) :
    (msh_upcmdhis past ch msh).r = ch.r
    ∧ (msh_upcmdhis past ch msh).in_.length = 15
    ∧ (msh_upcmdhis past ch msh).n ≤ 15
    ∧ ch.n ≤ (msh_upcmdhis past ch msh).n := by
  by_cases hb : (msh.argv.getD 0 []).headD NUL = NUL
  · rw [upcmdhis_blank past ch msh hb]
    exact ⟨rfl, hlen, hn, le_refl _⟩
  · by_cases hr : ch.r = 0
    · obtain ⟨u1, u2, u3, _⟩ := upcmdhis_stored past ch msh hlen hn hr hb
      refine ⟨by rw [u1, hr], u2, ?_, ?_⟩
      · rw [u3]
        omega
      · rw [u3]
        omega
    · rw [upcmdhis_pending past ch msh hr]
      exact ⟨rfl, hlen, hn, le_refl _⟩

theorem uppidhis_inv (ph : pidhis_t) (pid : Int) (hlen : ph.pid.length = 15)
    (hn : ph.n ≤ 15) :
    (msh_uppidhis ph pid).pid.length = 15 ∧ (msh_uppidhis ph pid).n ≤ 15 := by
  by_cases hp : pid = 0
  · have e : msh_uppidhis ph pid = ph := by
      unfold msh_uppidhis
      rw [if_pos hp]
    rw [e]
    exact ⟨hlen, hn⟩
  · obtain ⟨u1, u2, _, _⟩ := uppidhis_stored ph pid hp hlen hn
    refine ⟨u1, ?_⟩
    rw [u2]
    omega

theorem runproc_ph (env : Env) (msh : msh_t) (ph : pidhis_t) (r : runproc_t)
    (h : msh_runproc env msh ph = some r) : r.ph = ph ∨ r.ph = msh_uppidhis ph env.fork := by
  unfold msh_runproc at h
  split_ifs at h
  · cases h
    exact Or.inl rfl
  · cases h
    exact Or.inr rfl
  · cases h
    exact Or.inl rfl

theorem dispatch_inv (env : Env) (l : Line) (ch : cmdhis_t) (ph : pidhis_t) (s1 : State)
    (ev : List Event) (h : dispatch env l ch ph = some (s1, ev))
    (hr : ch.r = 0) (hlen : ch.in_.length = 15) (hn : ch.n ≤ 15)
    (hplen : ph.pid.length = 15) (hpn : ph.n ≤ 15) :
    s1.ch.r ≤ s1.ch.n ∧ s1.ch.n ≤ 15 ∧ s1.ch.in_.length = 15
    ∧ s1.ph.n ≤ 15 ∧ s1.ph.pid.length = 15 := by
  rw [dispatch_unfold] at h
  obtain ⟨r2, hr2, hs1⟩ := Option.map_eq_some'.mp h
  have hst : s1 = ⟨msh_upcmdhis env.past (msh_run env (msh_gentok (msh_zero l)) ch ph).ch
      (msh_gentok (msh_zero l)), r2.ph, !(msh_quit (first_token l))⟩ :=
    (congrArg Prod.fst hs1).symm
  obtain ⟨hch, hph⟩ := run_shape env (msh_gentok (msh_zero l)) ch ph
  have hph1 : (msh_run env (msh_gentok (msh_zero l)) ch ph).ph.pid.length = 15
      ∧ (msh_run env (msh_gentok (msh_zero l)) ch ph).ph.n ≤ 15 := by
    rcases hph with e | e
    · rw [e]
      exact ⟨hplen, hpn⟩
    · rw [e]
      exact ⟨hplen, hpn⟩
  have hph2 : r2.ph.pid.length = 15 ∧ r2.ph.n ≤ 15 := by
    by_cases hh : (msh_run env (msh_gentok (msh_zero l)) ch ph).handled = 0
    · rw [if_pos hh] at hr2
      rcases runproc_ph env _ _ r2 hr2 with e | e
      · rw [e]
        exact hph1
      · rw [e]
        exact uppidhis_inv _ _ hph1.1 hph1.2
    · rw [if_neg hh] at hr2
      cases hr2
      exact hph1
  rw [hst]
  simp only
  refine ⟨?_, ?_, ?_, hph2.2, hph2.1⟩
  · rcases hch with e | ⟨k, hk1, hk2, e⟩
    · rw [e]
      obtain ⟨v1, _, _, _⟩ := upcmdhis_inv env.past ch (msh_gentok (msh_zero l)) hlen hn
      rw [v1, hr]
      exact Nat.zero_le _
    · rw [e, upcmdhis_pending env.past _ _ (show ({ ch with r := k } : cmdhis_t).r ≠ 0 by
        show k ≠ 0
        omega)]
      exact hk2
  · rcases hch with e | ⟨k, hk1, hk2, e⟩
    · rw [e]
      exact (upcmdhis_inv env.past ch (msh_gentok (msh_zero l)) hlen hn).2.2.1
    · rw [e]
      exact (upcmdhis_inv env.past { ch with r := k } (msh_gentok (msh_zero l)) hlen hn).2.2.1
  · rcases hch with e | ⟨k, hk1, hk2, e⟩
    · rw [e]
      exact (upcmdhis_inv env.past ch (msh_gentok (msh_zero l)) hlen hn).2.1
    · rw [e]
      exact (upcmdhis_inv env.past { ch with r := k } (msh_gentok (msh_zero l)) hlen hn).2.1

theorem obtain_input_ch (ch : cmdhis_t) (stdin : List Line) :
    (obtain_input ch stdin).ch = { ch with r := 0 } := by
  unfold obtain_input
  split_ifs with h
  · rfl
  · have h0 : ch.r = 0 := by
      by_contra hc
      exact h hc
    cases ch
    simp only at h0
    subst h0
    rfl

theorem reachable_inv (s : State) (h : Reachable s) :
    s.ch.r ≤ s.ch.n ∧ s.ch.n ≤ 15 ∧ s.ch.in_.length = 15
    ∧ s.ph.n ≤ 15 ∧ s.ph.pid.length = 15 := by
  induction h with
  | start => decide
  | step env stdin rest s s1 ev _ hc ih =>
    unfold cycle at hc
    simp only at hc
    obtain ⟨p, hp, hp2⟩ := Option.map_eq_some'.mp hc
    have hps : p.1 = s1 := congrArg Prod.fst hp2
    rw [obtain_input_ch] at hp
    rw [← hps]
    exact dispatch_inv env _ { s.ch with r := 0 } s.ph p.1 p.2 hp rfl ih.2.2.1 ih.2.1
      ih.2.2.2.2 ih.2.2.2.1

theorem replay_pending_reachable : Reachable replay_pending := by
  have h1 : cycle sample_env ["ls\n".toList] init
      = some (⟨{ in_ := "ls\n".toList :: List.replicate 14 [], n := 1, r := 0 },
                msh_uppidhis ph_zero 100, true⟩, [],
              [Event.out "msh>".toList, Event.spawn 100]) := by decide
  have h2 : cycle sample_env ["!1\n".toList]
        ⟨{ in_ := "ls\n".toList :: List.replicate 14 [], n := 1, r := 0 },
          msh_uppidhis ph_zero 100, true⟩
      = some (replay_pending, [], [Event.out "msh>".toList]) := by decide
  exact Reachable.step _ _ _ _ _ _ (Reachable.step _ _ _ _ _ _ Reachable.start h1) h2

/-- Claim C19: in every state reachable from the zero-initialised start by any
sequence of interpreter cycles, whatever the environment and the input, the
command-history count `n` and the replay index `r` satisfy `0 ≤ r ≤ n ≤ 15`,
the process-history count is at most 15 and both arrays keep their 15 slots;
hence whenever a replay is pending, index `r-1` lies below `n` and inside the
array, and the line the next cycle takes is the stored entry at that index. -/
theorem reachable_counts_in_range (s : State) (stdin : List Line) (h : Reachable s) :
    0 ≤ s.ch.r ∧ s.ch.r ≤ s.ch.n ∧ s.ch.n ≤ 15
    ∧ 0 ≤ s.ph.n ∧ s.ph.n ≤ 15
    ∧ s.ch.in_.length = 15 ∧ s.ph.pid.length = 15
    ∧ (s.ch.r ≠ 0 →
        s.ch.r - 1 < s.ch.n ∧ s.ch.r - 1 < s.ch.in_.length
        ∧ ∃ e, (stored s.ch)[s.ch.r - 1]? = some e
            ∧ (obtain_input s.ch stdin).line = e
            ∧ (obtain_input s.ch stdin).stdin = stdin) := by
  obtain ⟨h1, h2, h3, h4, h5⟩ := reachable_inv s h
  refine ⟨Nat.zero_le _, h1, h2, Nat.zero_le _, h4, h3, h5, ?_⟩
  intro hr
  have hlt : s.ch.r - 1 < s.ch.n := by omega
  refine ⟨hlt, by omega, s.ch.in_.getD (s.ch.r - 1) [], ?_, ?_, ?_⟩
  · unfold stored
    rw [List.getElem?_take_of_lt hlt, List.getD_eq_getElem?_getD]
    have hl : s.ch.r - 1 < s.ch.in_.length := by omega
    rw [List.getElem?_eq_getElem hl]
    rfl
  · unfold obtain_input
    rw [if_pos hr]
  · unfold obtain_input
    rw [if_pos hr]

theorem reachable_counts_in_range_witness :
    0 ≤ replay_pending.ch.r ∧ replay_pending.ch.r ≤ replay_pending.ch.n
    ∧ replay_pending.ch.n ≤ 15
    ∧ 0 ≤ replay_pending.ph.n ∧ replay_pending.ph.n ≤ 15
    ∧ replay_pending.ch.in_.length = 15 ∧ replay_pending.ph.pid.length = 15
    ∧ (replay_pending.ch.r ≠ 0 →
        replay_pending.ch.r - 1 < replay_pending.ch.n
        ∧ replay_pending.ch.r - 1 < replay_pending.ch.in_.length
        ∧ ∃ e, (stored replay_pending.ch)[replay_pending.ch.r - 1]? = some e
            ∧ (obtain_input replay_pending.ch ["pwd\n".toList]).line = e
            ∧ (obtain_input replay_pending.ch ["pwd\n".toList]).stdin = ["pwd\n".toList]) :=
  reachable_counts_in_range replay_pending ["pwd\n".toList] replay_pending_reachable

/-! ## Replay without end, and the read past the history array -/

theorem replay_loop_reachable : Reachable replay_loop := by
  have h1 : cycle sample_env ["!1\n".toList] init
      = some (⟨{ in_ := "!1\n".toList :: List.replicate 14 [], n := 1, r := 0 },
                ph_zero, true⟩, [],
              [Event.out "msh>".toList, Event.err "Command not in history.\n".toList]) := by
    decide
  have h2 : cycle sample_env ["!1\n".toList]
        ⟨{ in_ := "!1\n".toList :: List.replicate 14 [], n := 1, r := 0 }, ph_zero, true⟩
      = some (replay_loop, [], [Event.out "msh>".toList]) := by decide
  exact Reachable.step _ _ _ _ _ _ (Reachable.step _ _ _ _ _ _ Reachable.start h1) h2

theorem replay_loop_cycle (env : Env) (stdin : List Line) :
    cycle env stdin replay_loop = some (replay_loop, stdin, []) := by
  have hd := dispatch_directive env "!1\n".toList
    { in_ := "!1\n".toList :: List.replicate 14 [], n := 1, r := 0 } ph_zero 1 "1".toList
    (by decide) (by decide) (by decide) (by decide) (by decide) (by decide)
  have ho : obtain_input replay_loop.ch stdin
      = ⟨"!1\n".toList, { in_ := "!1\n".toList :: List.replicate 14 [], n := 1, r := 0 },
          stdin, []⟩ := rfl
  unfold cycle
  simp only [ho]
  have hph : replay_loop.ph = ph_zero := rfl
  rw [hph, hd]
  rfl

/-- Claim C18 at the input `!1`, `!1` given to a fresh shell: the first line is
rejected (`Command not in history.`) yet stored as entry 1, the second is
accepted and sets the replay index to 1; the state reached is reachable and has
a replay pending, and the cycle that consumes this replay ends with the replay
index 1 again, in the very same state, having read no input and printed
nothing, whatever the environment: every later cycle does the same. -/
theorem replay_never_ends :
    (run_cycles [sample_env, sample_env] ["!1\n".toList, "!1\n".toList] init).map
        (fun r => r.1) = some replay_loop
    ∧ Reachable replay_loop
    ∧ replay_loop.ch.r = 1
    ∧ (∀ (env : Env) (stdin : List Line),
        cycle env stdin replay_loop = some (replay_loop, stdin, []))
    ∧ (∀ (envs : List Env) (stdin : List Line),
        run_cycles envs stdin replay_loop = some (replay_loop, stdin, [])) := by
  refine ⟨by decide, replay_loop_reachable, rfl, replay_loop_cycle, ?_⟩
  intro envs
  induction envs with
  | nil =>
    intro stdin
    rfl
  | cons e es ih =>
    intro stdin
    unfold run_cycles
    have hrun : replay_loop.running = true := rfl
    rw [if_pos hrun, replay_loop_cycle e stdin]
    simp only [Option.some_bind, ih stdin, Option.map_some']
    rfl

theorem upcmdhis_traced_fst (past : Line) (ch : cmdhis_t) (msh : msh_t) :
    (msh_upcmdhis_traced past ch msh).1 = msh_upcmdhis past ch msh := by
  have hfold : ∀ (is : List Nat) (a : List Line) (t : List Access),
      (is.foldl (fun (a : List Line × List Access) i =>
          (a.1.set i (a.1.getD (i + 1) past),
           a.2 ++ [Access.wr i, Access.rd (i + 1), Access.wr i])) (a, t)).1
        = is.foldl (fun a i => a.set i (a.getD (i + 1) past)) a := by
    intro is
    induction is with
    | nil =>
      intro a t
      rfl
    | cons i is ih =>
      intro a t
      simp only [List.foldl_cons]
      exact ih _ _
  unfold msh_upcmdhis_traced msh_upcmdhis
  split_ifs
  · rfl
  · rfl
  · rfl
  · simp only [hfold]

/-- Claim C20 at a full history: recording the line `vi` into a history of 15
entries, the model with its accesses logged returns the same history as
`msh_upcmdhis`, and the log of the shifting loop contains a read of entry 15, one
past the last entry of the 15-entry array (iteration `i = 14` copies
`ch->in[i+1]`); what that read yields is not an entry but whatever lies after
the array; the corresponding loop of `msh_uppidhis` touches entries 0..14 only. -/
theorem upcmdhis_reads_past_array :
    sample_full.n = 15 ∧ sample_full.in_.length = 15
    ∧ (∀ (past : Line) (ch : cmdhis_t) (msh : msh_t),
        (msh_upcmdhis_traced past ch msh).1 = msh_upcmdhis past ch msh)
    ∧ Access.rd 15 ∈
        (msh_upcmdhis_traced [] sample_full (msh_gentok (msh_zero "vi\n".toList))).2
    ∧ ¬ (∀ a ∈ (msh_upcmdhis_traced [] sample_full (msh_gentok (msh_zero "vi\n".toList))).2,
          a.index < 15)
    ∧ (∀ past : Line, sample_full.in_.getD 15 past = past)
    ∧ (∀ a ∈ uppidhis_full_accesses, a.index < 15) := by
  refine ⟨rfl, by decide, upcmdhis_traced_fst, by decide, by decide, ?_, by decide⟩
  intro past
  rfl

end Msh
